import Mathlib

/-!
Verification of the x binary lifter's core pipeline: instruction/terminator
classification, oracle-guided basic-block decoding, contiguous and chunked
function assembly, and the address codecs.  Definitions are shallow embeddings
of the Go source (package main draft in the repository; the canonical copies
are decodeBlocks, decodeFuncs, isTerm, Addr.String, parseUint32,
Addr.UnmarshalJSON, parseJSON and newLifter).  Addresses are Go uint32 values,
modelled as Nat with arithmetic reduced modulo 2^32 where the Go code wraps.
-/

set_option maxRecDepth 10000

namespace XLift

/-- x86 opcode as seen by the lifter.  The named constructors are the x86asm
opcodes that the terminator switch in isTerm mentions, plus CALL; `other`
stands for every remaining x86asm opcode, identified by its numeric code. -/
inductive Op where
  | LOOP | LOOPE | LOOPNE
  | JA | JAE | JB | JBE | JCXZ | JE | JECXZ | JG | JGE | JL | JLE
  | JNE | JNO | JNP | JNS | JO | JP | JRCXZ | JS
  | JMP
  | RET
  | CALL
  | other (code : Nat)
deriving DecidableEq, Repr

/-- Decoded x86 instruction annotated with its virtual address, as in the Go
`Instruction` struct: `addr` is the annotation added by decodeInst, while the
embedded x86asm.Inst contributes the opcode `op`, the byte length `len` and the
positional operands `args` (opaque to the core, modelled as numbers). -/
structure Instruction where
  addr : Nat
  op : Op
  len : Nat
  args : List Nat
deriving DecidableEq, Repr

/-- isTerm from the source: reports whether the given instruction is a
terminator instruction, by a switch on its opcode. -/
def isTerm (inst : Instruction) : Bool :=
  match inst.op with
  | .LOOP | .LOOPE | .LOOPNE => true
  | .JA | .JAE | .JB | .JBE | .JCXZ | .JE | .JECXZ | .JG | .JGE | .JL | .JLE
  | .JNE | .JNO | .JNP | .JNS | .JO | .JP | .JRCXZ | .JS => true
  | .JMP => true
  | .RET => true
  | _ => false

/-- The fixed terminator opcode set named by the specification. -/
def termOps : List Op :=
  [.LOOP, .LOOPE, .LOOPNE,
   .JA, .JAE, .JB, .JBE, .JCXZ, .JE, .JECXZ, .JG, .JGE, .JL, .JLE,
   .JNE, .JNO, .JNP, .JNS, .JO, .JP, .JRCXZ, .JS,
   .JMP, .RET]

/-- C6: isTerm returns true exactly on the fixed terminator opcode set, CALL is
not a terminator (regardless of the instruction's address or operands), and the
result of isTerm depends only on the opcode. -/
theorem isTerm_iff_termOps (i1 i2 : Instruction) (h : i1.op = i2.op) :
    (isTerm i1 = true ↔ i1.op ∈ termOps) ∧
    isTerm ⟨i1.addr, Op.CALL, i1.len, i1.args⟩ = false ∧
    isTerm i1 = isTerm i2 := by
  obtain ⟨a1, op1, l1, ar1⟩ := i1
  obtain ⟨a2, op2, l2, ar2⟩ := i2
  simp only [Instruction.mk.injEq] at h ⊢
  subst h
  refine ⟨?_, rfl, ?_⟩
  · cases op1 <;> simp [isTerm, termOps]
  · cases op1 <;> rfl

/-- Witness for C6 at a concrete pair of instructions sharing the JMP opcode. -/
theorem isTerm_iff_termOps_witness :
    (⟨4096, Op.JMP, 2, [7]⟩ : Instruction).op = (⟨8192, Op.JMP, 5, []⟩ : Instruction).op ∧
    ((isTerm ⟨4096, Op.JMP, 2, [7]⟩ = true ↔ (⟨4096, Op.JMP, 2, [7]⟩ : Instruction).op ∈ termOps) ∧
     isTerm ⟨4096, Op.CALL, 2, [7]⟩ = false ∧
     isTerm ⟨4096, Op.JMP, 2, [7]⟩ = isTerm ⟨8192, Op.JMP, 5, []⟩) :=
  ⟨rfl, isTerm_iff_termOps ⟨4096, Op.JMP, 2, [7]⟩ ⟨8192, Op.JMP, 5, []⟩ rfl⟩

/-- Reduce modulo 2^32, as Go uint32 addition does on overflow. -/
def u32 (n : Nat) : Nat := n % 4294967296

/-- Go uint32 subtraction a - b (wrapping), for a, b < 2^32. -/
def sub32 (a b : Nat) : Nat := (a + 4294967296 - b) % 4294967296

/-- Result of running a piece of Go code that may return a value, return an
error, or panic at an out-of-range slice access; `fuelOut` is the modelling
artifact for a run that exceeds the explicit fuel bound. -/
inductive DResult (α : Type) where
  | ok : α → DResult α
  | err : String → DResult α
  | crash : DResult α
  | fuelOut : DResult α
deriving DecidableEq, Repr

/-- Outcome of one successful x86asm.Decode call: opcode, byte length and
operands of the decoded instruction. -/
structure DecodedInst where
  op : Op
  len : Nat
  args : List Nat
deriving DecidableEq, Repr

/-- Abstract instruction decoder standing for x86asm.Decode with cpuMode fixed
to 32 bits: given the leading bytes it either decodes one instruction or
fails. -/
def Decoder : Type := List Nat → Option DecodedInst

/-- BasicBlock from the source: a sequence of instructions. -/
structure BasicBlock where
  insts : List Instruction
deriving DecidableEq, Repr

/-- Entry of a basic block: the address of its first instruction, as in the Go
method Entry (which requires a non-empty block; the default 0 on an empty
block stands in for the Go panic and is never reached on decoded blocks). -/
def BasicBlock.entry (b : BasicBlock) : Nat :=
  match b.insts with
  | [] => 0
  | i :: _ => i.addr

/-- Error message of decodeInst on a decode failure. -/
def errDecode : String := "unable to parse instruction"

/-- Address one past the instruction: its address plus its length, wrapped to
uint32 exactly as the Go cursor update instAddr += Addr(inst.Len). -/
def instEnd (i : Instruction) : Nat := u32 (i.addr + i.len)

/-- The break condition of the decoding loop in decodeBlocks: the decoded
instruction is a terminator, or a next block address exists and the advanced
cursor (instEnd) is at or past it. -/
def stopCond (next : Option Nat) (i : Instruction) : Bool :=
  isTerm i ||
    match next with
    | some nb => decide (nb ≤ instEnd i)
    | none => false

/-- The inner instruction-decoding loop of decodeBlocks for one block.  Each
iteration computes the slice offset int(instAddr - start) with wrapping uint32
subtraction; an offset past the end of data is the Go out-of-range panic
(`crash`); otherwise one instruction is decoded from data[offset:], appended,
the cursor advanced, and the loop stops when stopCond holds. -/
def decodeBlockLoop (dec : Decoder) (start : Nat) (data : List Nat)
    (next : Option Nat) :
    Nat → Nat → List Instruction → DResult (List Instruction)
  | 0, _, _ => .fuelOut
  | fuel + 1, instAddr, acc =>
    if data.length < sub32 instAddr start then .crash
    else
      match dec (data.drop (sub32 instAddr start)) with
      | none => .err errDecode
      | some di =>
        if stopCond next ⟨instAddr, di.op, di.len, di.args⟩ then
          .ok (acc ++ [⟨instAddr, di.op, di.len, di.args⟩])
        else
          decodeBlockLoop dec start data next fuel
            (instEnd ⟨instAddr, di.op, di.len, di.args⟩)
            (acc ++ [⟨instAddr, di.op, di.len, di.args⟩])

/-- decodeBlocks from the source: for each oracle block address (in list
order), decode one basic block starting there; the next block address in the
list bounds the current block (fall-through rule). -/
def decodeBlocks (dec : Decoder) (start : Nat) (data : List Nat) (fuel : Nat) :
    List Nat → DResult (List BasicBlock)
  | [] => .ok []
  | blockAddr :: rest =>
    match decodeBlockLoop dec start data rest.head? fuel blockAddr [] with
    | .ok insts =>
      match decodeBlocks dec start data fuel rest with
      | .ok blocks => .ok (⟨insts⟩ :: blocks)
      | r => r
    | .err e => .err e
    | .crash => .crash
    | .fuelOut => .fuelOut

/-- The instruction list decoded from cursor a is consecutive in memory: the
first instruction sits at a and each next one at the wrapped end of the
previous. -/
def chained : Nat → List Instruction → Prop
  | _, [] => True
  | a, i :: rest => i.addr = a ∧ chained (instEnd i) rest

theorem getLast?_cons_ne {α : Type} (a : α) (l : List α) (h : l ≠ []) :
    (a :: l).getLast? = l.getLast? := by
  cases l with
  | nil => exact absurd rfl h
  | cons b t => exact List.getLast?_cons_cons

theorem chained_get (a : Nat) :
    ∀ (l : List Instruction), chained a l →
      (∀ x, l.get? 0 = some x → x.addr = a) ∧
      (∀ t x y, l.get? t = some x → l.get? (t + 1) = some y → y.addr = instEnd x) := by
  intro l
  induction l generalizing a with
  | nil => intro _; exact ⟨by simp, by simp⟩
  | cons i rest ih =>
    intro hc
    obtain ⟨haddr, hrest⟩ := hc
    obtain ⟨ih0, ihs⟩ := ih (instEnd i) hrest
    refine ⟨?_, ?_⟩
    · intro x hx
      simp only [List.get?_cons_zero, Option.some.injEq] at hx
      subst hx
      exact haddr
    · intro t x y hx hy
      match t with
      | 0 =>
        simp only [List.get?_cons_zero, Option.some.injEq] at hx
        simp only [List.get?_cons_succ] at hy
        subst hx
        exact ih0 y hy
      | t + 1 =>
        simp only [List.get?_cons_succ] at hx hy
        exact ihs t x y hx hy

theorem decodeBlockLoop_spec (dec : Decoder) (start : Nat) (data : List Nat)
    (next : Option Nat) :
    ∀ (fuel a : Nat) (acc res : List Instruction),
      decodeBlockLoop dec start data next fuel a acc = .ok res →
      ∃ tail, res = acc ++ tail ∧ tail ≠ [] ∧ chained a tail ∧
        (∀ i ∈ tail.dropLast, stopCond next i = false) ∧
        (∃ lastI, tail.getLast? = some lastI ∧ stopCond next lastI = true) := by
  intro fuel
  induction fuel with
  | zero =>
    intro a acc res h
    simp [decodeBlockLoop] at h
  | succ n ih =>
    intro a acc res h
    rw [decodeBlockLoop] at h
    by_cases hoff : data.length < sub32 a start
    · simp [hoff] at h
    · simp only [if_neg hoff] at h
      cases hdec : dec (data.drop (sub32 a start)) with
      | none => rw [hdec] at h; simp at h
      | some di =>
        rw [hdec] at h
        by_cases hstop : stopCond next ⟨a, di.op, di.len, di.args⟩ = true
        · simp only [if_pos hstop, DResult.ok.injEq] at h
          refine ⟨[⟨a, di.op, di.len, di.args⟩], h.symm, by simp, ⟨rfl, trivial⟩, ?_, ?_⟩
          · simp
          · exact ⟨⟨a, di.op, di.len, di.args⟩, by simp, hstop⟩
        · simp only [if_neg hstop] at h
          obtain ⟨tail, htl, hne, hch, hmid, hlast⟩ := ih _ _ _ h
          refine ⟨⟨a, di.op, di.len, di.args⟩ :: tail, by simp [htl], by simp, ⟨rfl, hch⟩, ?_, ?_⟩
          · intro i hi
            rw [List.dropLast_cons_of_ne_nil hne] at hi
            rcases List.mem_cons.mp hi with h1 | h2
            · rw [h1]; exact Bool.not_eq_true _ ▸ (by simpa using hstop)
            · exact hmid i h2
          · obtain ⟨lastI, hl, hs⟩ := hlast
            exact ⟨lastI, by rw [getLast?_cons_ne _ _ hne]; exact hl, hs⟩

theorem decodeBlocks_spec (dec : Decoder) (start : Nat) (data : List Nat)
    (fuel : Nat) :
    ∀ (blockAddrs : List Nat) (blocks : List BasicBlock),
      decodeBlocks dec start data fuel blockAddrs = .ok blocks →
      blocks.length = blockAddrs.length ∧
      ∀ k ba b, blockAddrs.get? k = some ba → blocks.get? k = some b →
        b.insts ≠ [] ∧ chained ba b.insts ∧
        (∀ i ∈ b.insts.dropLast, stopCond (blockAddrs.get? (k + 1)) i = false) ∧
        (∃ lastI, b.insts.getLast? = some lastI ∧
          stopCond (blockAddrs.get? (k + 1)) lastI = true) := by
  intro blockAddrs
  induction blockAddrs with
  | nil =>
    intro blocks h
    simp only [decodeBlocks, DResult.ok.injEq] at h
    subst h
    exact ⟨rfl, by intro k ba b hba; simp at hba⟩
  | cons ba0 rest ih =>
    intro blocks h
    rw [decodeBlocks] at h
    cases hloop : decodeBlockLoop dec start data rest.head? fuel ba0 [] with
    | ok insts =>
      rw [hloop] at h
      cases hrest : decodeBlocks dec start data fuel rest with
      | ok blocks' =>
        rw [hrest] at h
        simp only [DResult.ok.injEq] at h
        subst h
        obtain ⟨hlen, hblocks⟩ := ih blocks' hrest
        obtain ⟨tail, htl, hne, hch, hmid, hlast⟩ :=
          decodeBlockLoop_spec dec start data rest.head? fuel ba0 [] insts hloop
        simp only [List.nil_append] at htl
        subst htl
        refine ⟨by simp [hlen], ?_⟩
        intro k ba b hba hb
        match k with
        | 0 =>
          simp only [List.get?_cons_zero, Option.some.injEq] at hba hb
          subst hba
          subst hb
          have hnext : (ba0 :: rest).get? 1 = rest.head? := by
            cases rest <;> simp
          rw [hnext]
          exact ⟨hne, hch, hmid, hlast⟩
        | k + 1 =>
          simp only [List.get?_cons_succ] at hba hb
          have : (ba0 :: rest).get? (k + 1 + 1) = rest.get? (k + 1) := by simp
          rw [this]
          exact hblocks k ba b hba hb
      | err e => rw [hrest] at h; simp at h
      | crash => rw [hrest] at h; simp at h
      | fuelOut => rw [hrest] at h; simp at h
    | err e => rw [hloop] at h; simp at h
    | crash => rw [hloop] at h; simp at h
    | fuelOut => rw [hloop] at h; simp at h

theorem stopCond_true_iff (next : Option Nat) (i : Instruction) :
    stopCond next i = true ↔
      isTerm i = true ∨ ∃ nb, next = some nb ∧ nb ≤ instEnd i := by
  cases next <;> simp [stopCond]

theorem stopCond_false_iff (next : Option Nat) (i : Instruction) :
    stopCond next i = false ↔
      isTerm i = false ∧ ∀ nb, next = some nb → instEnd i < nb := by
  cases next with
  | none => simp [stopCond]
  | some nb =>
    simp only [stopCond, Bool.or_eq_false_iff, decide_eq_false_iff_not, not_le,
      Option.some.injEq, and_congr_right_iff]
    intro _
    constructor
    · intro h nb2 he
      exact he ▸ h
    · intro h
      exact h nb rfl

/-- C1: the decoding loop of decodeBlocks stops immediately after an
instruction exactly when that instruction is a terminator (isTerm) or a next
block address exists and the advanced cursor instAddr (the instruction's
address plus its length, wrapped to uint32) is at or past it; hence in every
produced block the last instruction isTerm or ends at or past the next block's
entry, and every non-last instruction is a non-terminator ending strictly
before the next block's entry. -/
theorem decodeBlocks_termination_rule
    (dec : Decoder) (start : Nat) (data : List Nat) (fuel : Nat)
    (blockAddrs : List Nat) (blocks : List BasicBlock)
    (h : decodeBlocks dec start data fuel blockAddrs = .ok blocks) :
    ∀ k b, blocks.get? k = some b →
      (∃ lastI, b.insts.getLast? = some lastI ∧
        (isTerm lastI = true ∨
          ∃ nb, blockAddrs.get? (k + 1) = some nb ∧ nb ≤ instEnd lastI)) ∧
      (∀ i ∈ b.insts.dropLast, isTerm i = false ∧
        ∀ nb, blockAddrs.get? (k + 1) = some nb → instEnd i < nb) := by
  obtain ⟨hlen, hspec⟩ := decodeBlocks_spec dec start data fuel blockAddrs blocks h
  intro k b hb
  have hk : k < blocks.length := by
    rcases List.get?_eq_some.mp hb with ⟨hlt, _⟩
    exact hlt
  have hk2 : k < blockAddrs.length := hlen ▸ hk
  obtain ⟨ba, hba⟩ : ∃ ba, blockAddrs.get? k = some ba :=
    ⟨blockAddrs.get ⟨k, hk2⟩, List.get?_eq_get hk2⟩
  obtain ⟨hne, hch, hmid, lastI, hl, hs⟩ := hspec k ba b hba hb
  refine ⟨⟨lastI, hl, (stopCond_true_iff _ _).mp hs⟩, ?_⟩
  intro i hi
  exact (stopCond_false_iff _ _).mp (hmid i hi)

/-- Decoder used by concrete witnesses: byte 0x90 decodes to a one-byte
non-terminator (NOP), byte 0xC3 to a one-byte RET, anything else fails. -/
def decSimple : Decoder := fun src =>
  match src with
  | 144 :: _ => some ⟨Op.other 144, 1, []⟩
  | 195 :: _ => some ⟨Op.RET, 1, []⟩
  | _ => none

/-- Blocks decoded by decSimple from section bytes 90 90 C3 at 0x1000 with
block addresses 0x1000 and 0x1002. -/
def wBlocksC1 : List BasicBlock :=
  [⟨[⟨4096, Op.other 144, 1, []⟩, ⟨4097, Op.other 144, 1, []⟩]⟩,
   ⟨[⟨4098, Op.RET, 1, []⟩]⟩]

/-- Witness for C1: a fall-through split block followed by a RET block. -/
theorem decodeBlocks_termination_rule_witness :
    decodeBlocks decSimple 4096 [144, 144, 195] 8 [4096, 4098] = .ok wBlocksC1 ∧
    ∀ k b, wBlocksC1.get? k = some b →
      (∃ lastI, b.insts.getLast? = some lastI ∧
        (isTerm lastI = true ∨
          ∃ nb, ([4096, 4098] : List Nat).get? (k + 1) = some nb ∧ nb ≤ instEnd lastI)) ∧
      (∀ i ∈ b.insts.dropLast, isTerm i = false ∧
        ∀ nb, ([4096, 4098] : List Nat).get? (k + 1) = some nb → instEnd i < nb) :=
  ⟨rfl, decodeBlocks_termination_rule decSimple 4096 [144, 144, 195] 8
    [4096, 4098] wBlocksC1 rfl⟩

/-- C3: on success decodeBlocks returns one block per oracle block address,
the k-th block's first instruction sits at the k-th block address, and inside
each block consecutive instructions satisfy next.addr = addr + len (wrapped to
uint32). -/
theorem decodeBlocks_structure
    (dec : Decoder) (start : Nat) (data : List Nat) (fuel : Nat)
    (blockAddrs : List Nat) (blocks : List BasicBlock)
    (h : decodeBlocks dec start data fuel blockAddrs = .ok blocks) :
    blocks.length = blockAddrs.length ∧
    ∀ k ba b, blockAddrs.get? k = some ba → blocks.get? k = some b →
      b.insts ≠ [] ∧
      (∀ x, b.insts.get? 0 = some x → x.addr = ba) ∧
      (∀ t x y, b.insts.get? t = some x → b.insts.get? (t + 1) = some y →
        y.addr = instEnd x) := by
  obtain ⟨hlen, hspec⟩ := decodeBlocks_spec dec start data fuel blockAddrs blocks h
  refine ⟨hlen, ?_⟩
  intro k ba b hba hb
  obtain ⟨hne, hch, -, -⟩ := hspec k ba b hba hb
  obtain ⟨h0, hsucc⟩ := chained_get ba b.insts hch
  exact ⟨hne, h0, hsucc⟩

/-- Blocks decoded by decSimple from section bytes 90 90 C3 at 0x1000 with the
single block address 0x1000. -/
def wBlocksC3 : List BasicBlock :=
  [⟨[⟨4096, Op.other 144, 1, []⟩, ⟨4097, Op.other 144, 1, []⟩,
     ⟨4098, Op.RET, 1, []⟩]⟩]

/-- Witness for C3: one block of three consecutive instructions. -/
theorem decodeBlocks_structure_witness :
    decodeBlocks decSimple 4096 [144, 144, 195] 8 [4096] = .ok wBlocksC3 ∧
    (wBlocksC3.length = ([4096] : List Nat).length ∧
     ∀ k ba b, ([4096] : List Nat).get? k = some ba → wBlocksC3.get? k = some b →
       b.insts ≠ [] ∧
       (∀ x, b.insts.get? 0 = some x → x.addr = ba) ∧
       (∀ t x y, b.insts.get? t = some x → b.insts.get? (t + 1) = some y →
         y.addr = instEnd x)) :=
  ⟨rfl, decodeBlocks_structure decSimple 4096 [144, 144, 195] 8 [4096] wBlocksC3 rfl⟩

/-- C10: decodeBlocks indexes the section bytes at int(instAddr - start) with
wrapping uint32 subtraction and no bounds check; a block address below the
section start wraps to a huge offset, and a block address past the section's
data also exceeds its length; both make the slice access data[offset:] crash
(the Go out-of-range panic), rather than return an error. -/
theorem decodeBlocks_oob_crash :
    sub32 4095 4096 = 4294967295 ∧
    decodeBlocks decSimple 4096 [195] 8 [4095] = .crash ∧
    decodeBlocks decSimple 4096 [144, 144, 195] 8 [8192] = .crash :=
  ⟨rfl, rfl, rfl⟩

/-- Error message of decodeFuncs when a block precedes the current function
window ("unable to locate function containing basic block ..."). -/
def errBlockOutsideFunc : String := "unable to locate function containing basic block"

/-- Error message of decodeFuncs when a chunk names an unknown block
("unable to locate basic block at ..."). -/
def errMissingBlock : String := "unable to locate basic block"

/-- Error message of decodeFuncs when a chunk names an unknown function
("unable to locate function at ..."). -/
def errMissingFunc : String := "unable to locate function"

/-- Function from the source: an entry address plus a map from basic block
address to basic block, modelled as an association list with Go map update
semantics (mapInsert). -/
structure Function where
  entry : Nat
  blocks : List (Nat × BasicBlock)
deriving DecidableEq, Repr

/-- newFunc from the source: a function with the given entry and empty block
map. -/
def newFunc (entry : Nat) : Function := ⟨entry, []⟩

/-- Go map assignment m[k] = v on the association-list model: replace the
binding of k if present, else append it. -/
def mapInsert (k : Nat) (v : BasicBlock) : List (Nat × BasicBlock) → List (Nat × BasicBlock)
  | [] => [(k, v)]
  | (k2, v2) :: rest =>
    if k2 = k then (k, v) :: rest else (k2, v2) :: mapInsert k v rest

/-- Go map lookup m[k] on the association-list model. -/
def lookupBB (m : List (Nat × BasicBlock)) (k : Nat) : Option BasicBlock :=
  match m with
  | [] => none
  | (k2, v) :: rest => if k2 = k then some v else lookupBB rest k

/-- The inner loop of the contiguous phase of decodeFuncs: consume blocks from
the cursor while their entry is below `stop` (the next function address, or
UINT32_MAX for the last function), requiring each entry to be at least `start`
(else the block-before-function-start error), and assign each consumed block
to the function under its entry address.  Returns the updated function and
the remaining blocks. -/
def assignBlocks (start stop : Nat) : List BasicBlock → Function → Except String (Function × List BasicBlock)
  | [], f => .ok (f, [])
  | b :: rest, f =>
    if stop ≤ b.entry then .ok (f, b :: rest)
    else if b.entry < start then .error errBlockOutsideFunc
    else assignBlocks start stop rest ⟨f.entry, mapInsert b.entry b f.blocks⟩

/-- The contiguous phase of decodeFuncs: iterate funcAddrs in list order (the
lifter sorts them ascending), taking the following address as the window end
(UINT32_MAX = 4294967295 for the last), with a block cursor that is never
restarted. -/
def contigStop : List Nat → Nat
  | [] => 4294967295
  | fa2 :: _ => fa2

def decodeFuncsContig : List Nat → List BasicBlock → Except String (List Function × List BasicBlock)
  | [], blocks => .ok ([], blocks)
  | fa :: rest, blocks =>
    match assignBlocks fa (contigStop rest) blocks (newFunc fa) with
    | .error e => .error e
    | .ok (f, blocks2) =>
      match decodeFuncsContig rest blocks2 with
      | .error e => .error e
      | .ok (fs, blocks3) => .ok (f :: fs, blocks3)

/-- The end of the i-th function window: funcAddrs[i+1] when it exists, else
UINT32_MAX. -/
def endAt (funcAddrs : List Nat) (i : Nat) : Nat :=
  match funcAddrs.get? (i + 1) with
  | some a => a
  | none => 4294967295

/-- The blockFromAddr index of the chunks phase: Go builds it by inserting
every block under its entry in list order, so on duplicate entries the last
block wins; searching the tail first models that. -/
def blockFromAddr : List BasicBlock → Nat → Option BasicBlock
  | [], _ => none
  | b :: rest, ba =>
    match blockFromAddr rest ba with
    | some b2 => some b2
    | none => if b.entry = ba then some b else none

/-- The funcFromAddr index of decodeFuncs: maps a function address to the
function built for it, as the position in the function list; on duplicate
entries the last one wins, as with a Go map filled in order. -/
def funcIdx : List Function → Nat → Option Nat
  | [], _ => none
  | f :: rest, fa =>
    match funcIdx rest fa with
    | some i => some (i + 1)
    | none => if f.entry = fa then some 0 else none

/-- Mutation of the shared function value f.blocks[ba] = b, at position i of
the function list (Go mutates through the pointer held by both the list and
funcFromAddr). -/
def setBlocks : List Function → Nat → Nat → BasicBlock → List Function
  | [], _, _, _ => []
  | f :: rest, 0, ba, b => ⟨f.entry, mapInsert ba b f.blocks⟩ :: rest
  | f :: rest, i + 1, ba, b => f :: setBlocks rest i ba b

/-- Inner loop of the chunks phase: insert block b (at block address ba) into
every function of the chunk's function-address set, failing on an unknown
function address. -/
def addToFuncs (ba : Nat) (b : BasicBlock) : List Nat → List Function → Except String (List Function)
  | [], funcs => .ok funcs
  | fa :: rest, funcs =>
    match funcIdx funcs fa with
    | none => .error errMissingFunc
    | some i => addToFuncs ba b rest (setBlocks funcs i ba b)

/-- The non-contiguous (chunks) phase of decodeFuncs: for each chunk, look the
block up by address (failing on an unknown block address) and add it to every
claiming function.  Go iterates the chunks map in unspecified order; the model
takes them in list order. -/
def chunksPhase (bs : List BasicBlock) : List (Nat × List Nat) → List Function → Except String (List Function)
  | [], funcs => .ok funcs
  | (ba, fas) :: rest, funcs =>
    match blockFromAddr bs ba with
    | none => .error errMissingBlock
    | some b =>
      match addToFuncs ba b fas funcs with
      | .error e => .error e
      | .ok funcs2 => chunksPhase bs rest funcs2

/-- decodeFuncs from the source: the contiguous phase over sorted funcAddrs
followed by the chunks phase (leftover blocks past the last consumed cursor
position are ignored). -/
def decodeFuncs (funcAddrs : List Nat) (chunks : List (Nat × List Nat)) (blocks : List BasicBlock) :
    Except String (List Function) :=
  match decodeFuncsContig funcAddrs blocks with
  | .error e => .error e
  | .ok (funcs, _) => chunksPhase blocks chunks funcs

theorem lookupBB_mapInsert (k : Nat) (v : BasicBlock) :
    ∀ (m : List (Nat × BasicBlock)) (k2 : Nat),
      lookupBB (mapInsert k v m) k2 = if k = k2 then some v else lookupBB m k2 := by
  intro m
  induction m with
  | nil => intro k2; simp [mapInsert, lookupBB]
  | cons p rest ih =>
    intro k2
    obtain ⟨k3, v3⟩ := p
    by_cases h3 : k3 = k
    · subst h3
      simp only [mapInsert, if_pos rfl, lookupBB]
      by_cases h2 : k3 = k2
      · subst h2; simp
      · simp [h2, lookupBB]
    · simp only [mapInsert, if_neg h3, lookupBB]
      by_cases h2 : k3 = k2
      · subst h2
        have : ¬k = k3 := fun he => h3 he.symm
        simp [this]
      · simp [h2, ih k2]

theorem lookupBB_foldl_ne (k : Nat) :
    ∀ (l : List BasicBlock) (m : List (Nat × BasicBlock)),
      (∀ b ∈ l, b.entry ≠ k) →
      lookupBB (l.foldl (fun m2 b => mapInsert b.entry b m2) m) k = lookupBB m k := by
  intro l
  induction l with
  | nil => intro m _; rfl
  | cons hd t ih =>
    intro m hne
    simp only [List.foldl_cons]
    rw [ih _ (fun b hb => hne b (List.mem_cons_of_mem hd hb))]
    rw [lookupBB_mapInsert]
    exact if_neg (hne hd (List.mem_cons_self hd t))

theorem lookupBB_foldl_mem :
    ∀ (l : List BasicBlock) (m : List (Nat × BasicBlock)) (b : BasicBlock),
      List.Pairwise (fun x y => x.entry ≠ y.entry) l → b ∈ l →
      lookupBB (l.foldl (fun m2 b2 => mapInsert b2.entry b2 m2) m) b.entry = some b := by
  intro l
  induction l with
  | nil => intro m b _ hb; simp at hb
  | cons hd t ih =>
    intro m b hpw hb
    obtain ⟨hhd, hpt⟩ := List.pairwise_cons.mp hpw
    simp only [List.foldl_cons]
    rcases List.mem_cons.mp hb with h1 | h2
    · subst h1
      rw [lookupBB_foldl_ne _ t _ (fun b2 hb2 => fun he => hhd b2 hb2 he.symm)]
      rw [lookupBB_mapInsert]
      simp
    · exact ih _ b hpt h2

theorem lookupBB_foldl_inv :
    ∀ (l : List BasicBlock) (m : List (Nat × BasicBlock)) (k : Nat) (v : BasicBlock),
      lookupBB (l.foldl (fun m2 b2 => mapInsert b2.entry b2 m2) m) k = some v →
      (v ∈ l ∧ v.entry = k) ∨ lookupBB m k = some v := by
  intro l
  induction l with
  | nil => intro m k v h; exact Or.inr h
  | cons hd t ih =>
    intro m k v h
    simp only [List.foldl_cons] at h
    rcases ih _ k v h with ⟨h1, h2⟩ | h3
    · exact Or.inl ⟨List.mem_cons_of_mem hd h1, h2⟩
    · rw [lookupBB_mapInsert] at h3
      by_cases he : hd.entry = k
      · rw [if_pos he] at h3
        cases h3
        exact Or.inl ⟨List.mem_cons_self hd t, he⟩
      · rw [if_neg he] at h3
        exact Or.inr h3

theorem assignBlocks_ok (start stop : Nat) :
    ∀ (bs : List BasicBlock) (f f2 : Function) (rest : List BasicBlock),
      assignBlocks start stop bs f = .ok (f2, rest) →
      ∃ pre, bs = pre ++ rest ∧
        (∀ b ∈ pre, start ≤ b.entry ∧ b.entry < stop) ∧
        f2.entry = f.entry ∧
        f2.blocks = pre.foldl (fun m b => mapInsert b.entry b m) f.blocks ∧
        (∀ b0, rest.head? = some b0 → stop ≤ b0.entry) := by
  intro bs
  induction bs with
  | nil =>
    intro f f2 rest h
    simp only [assignBlocks, Except.ok.injEq, Prod.mk.injEq] at h
    obtain ⟨hf, hr⟩ := h
    subst hf
    subst hr
    exact ⟨[], rfl, by simp, rfl, rfl, by simp⟩
  | cons b bs0 ih =>
    intro f f2 rest h
    rw [assignBlocks] at h
    by_cases hstop : stop ≤ b.entry
    · rw [if_pos hstop] at h
      simp only [Except.ok.injEq, Prod.mk.injEq] at h
      obtain ⟨hf, hr⟩ := h
      subst hf
      subst hr
      refine ⟨[], rfl, by simp, rfl, rfl, ?_⟩
      intro b0 hb0
      simp only [List.head?_cons, Option.some.injEq] at hb0
      subst hb0
      exact hstop
    · rw [if_neg hstop] at h
      by_cases hlow : b.entry < start
      · rw [if_pos hlow] at h
        simp at h
      · rw [if_neg hlow] at h
        obtain ⟨pre, hsplit, hwin, hent, hblk, hhead⟩ := ih _ f2 rest h
        refine ⟨b :: pre, by simp [hsplit], ?_, hent, ?_, hhead⟩
        · intro b2 hb2
          rcases List.mem_cons.mp hb2 with h1 | h2
          · subst h1
            exact ⟨le_of_not_lt hlow, lt_of_not_le hstop⟩
          · exact hwin b2 h2
        · simpa using hblk

theorem assignBlocks_noErr (start stop : Nat) :
    ∀ (bs : List BasicBlock) (f : Function),
      List.Pairwise (fun x y => x.entry < y.entry) bs →
      (∀ b0, bs.head? = some b0 → start ≤ b0.entry) →
      ∃ res, assignBlocks start stop bs f = .ok res := by
  intro bs
  induction bs with
  | nil => intro f _ _; exact ⟨(f, []), rfl⟩
  | cons b bs0 ih =>
    intro f hpw hhead
    rw [assignBlocks]
    by_cases hstop : stop ≤ b.entry
    · rw [if_pos hstop]; exact ⟨(f, b :: bs0), rfl⟩
    · rw [if_neg hstop]
      have hge : start ≤ b.entry := hhead b rfl
      rw [if_neg (not_lt.mpr hge)]
      obtain ⟨hhd, hpt⟩ := List.pairwise_cons.mp hpw
      refine ih _ hpt ?_
      intro b0 hb0
      have hmem : b0 ∈ bs0 := by
        cases bs0 with
        | nil => simp at hb0
        | cons x t =>
          simp only [List.head?_cons, Option.some.injEq] at hb0
          subst hb0
          exact List.mem_cons_self x t
      exact le_of_lt (lt_of_le_of_lt hge (hhd b0 hmem))

theorem assignBlocks_err (start stop : Nat) (b : BasicBlock) (bs : List BasicBlock)
    (f : Function) (h1 : b.entry < start) (h2 : b.entry < stop) :
    assignBlocks start stop (b :: bs) f = .error errBlockOutsideFunc := by
  rw [assignBlocks, if_neg (not_le.mpr h2), if_pos h1]

theorem assignBlocks_err_msg (start stop : Nat) :
    ∀ (bs : List BasicBlock) (f : Function) (e : String),
      assignBlocks start stop bs f = .error e → e = errBlockOutsideFunc := by
  intro bs
  induction bs with
  | nil => intro f e h; simp [assignBlocks] at h
  | cons b bs0 ih =>
    intro f e h
    rw [assignBlocks] at h
    by_cases hstop : stop ≤ b.entry
    · rw [if_pos hstop] at h; simp at h
    · rw [if_neg hstop] at h
      by_cases hlow : b.entry < start
      · rw [if_pos hlow] at h
        simp only [Except.error.injEq] at h
        exact h.symm
      · rw [if_neg hlow] at h
        exact ih _ e h

theorem endAt_zero (fa0 : Nat) (fas : List Nat) :
    contigStop fas = endAt (fa0 :: fas) 0 := by
  cases fas <;> rfl

theorem endAt_succ (fa0 : Nat) (fas : List Nat) (k : Nat) :
    endAt (fa0 :: fas) (k + 1) = endAt fas k := rfl

theorem pairwise_head_le (x y : Nat) (l : List Nat) (k : Nat)
    (hpw : List.Pairwise (· < ·) (x :: l)) (h : (x :: l).get? k = some y) :
    x ≤ y := by
  match k with
  | 0 =>
    simp only [List.get?_cons_zero, Option.some.injEq] at h
    exact le_of_eq h
  | k + 1 =>
    simp only [List.get?_cons_succ] at h
    exact le_of_lt ((List.pairwise_cons.mp hpw).1 y (List.get?_mem h))

theorem decodeFuncsContig_entries :
    ∀ (fas : List Nat) (bs : List BasicBlock) (funcs : List Function) (rest : List BasicBlock),
      decodeFuncsContig fas bs = .ok (funcs, rest) →
      funcs.map Function.entry = fas := by
  intro fas
  induction fas with
  | nil =>
    intro bs funcs rest h
    simp only [decodeFuncsContig, Except.ok.injEq, Prod.mk.injEq] at h
    obtain ⟨h1, -⟩ := h
    subst h1
    rfl
  | cons fa0 fas' ih =>
    intro bs funcs rest h
    rw [decodeFuncsContig] at h
    cases hassign : assignBlocks fa0 (contigStop fas') bs (newFunc fa0) with
    | error e => simp only [hassign] at h; simp at h
    | ok p =>
      obtain ⟨f0, bs2⟩ := p
      simp only [hassign] at h
      cases hrec : decodeFuncsContig fas' bs2 with
      | error e => simp only [hrec] at h; simp at h
      | ok q =>
        obtain ⟨fs, bs3⟩ := q
        simp only [hrec] at h
        simp only [Except.ok.injEq, Prod.mk.injEq] at h
        obtain ⟨h1, -⟩ := h
        subst h1
        obtain ⟨pre, -, -, hent, -, -⟩ :=
          assignBlocks_ok _ _ bs (newFunc fa0) f0 bs2 hassign
        simp [hent, newFunc, ih bs2 fs bs3 hrec]

theorem decodeFuncsContig_err_msg :
    ∀ (fas : List Nat) (bs : List BasicBlock) (e : String),
      decodeFuncsContig fas bs = .error e → e = errBlockOutsideFunc := by
  intro fas
  induction fas with
  | nil => intro bs e h; simp [decodeFuncsContig] at h
  | cons fa0 fas' ih =>
    intro bs e h
    rw [decodeFuncsContig] at h
    cases hassign : assignBlocks fa0 (contigStop fas') bs (newFunc fa0) with
    | error e2 =>
      simp only [hassign] at h
      simp only [Except.error.injEq] at h
      exact h ▸ assignBlocks_err_msg _ _ bs (newFunc fa0) e2 hassign
    | ok p =>
      obtain ⟨f0, bs2⟩ := p
      simp only [hassign] at h
      cases hrec : decodeFuncsContig fas' bs2 with
      | error e2 =>
        simp only [hrec] at h
        simp only [Except.error.injEq] at h
        exact h ▸ ih bs2 e2 hrec
      | ok q =>
        obtain ⟨fs, bs3⟩ := q
        simp only [hrec] at h
        simp at h

theorem decodeFuncsContig_values :
    ∀ (fas : List Nat) (bs : List BasicBlock) (funcs : List Function) (rest : List BasicBlock),
      decodeFuncsContig fas bs = .ok (funcs, rest) →
      ∀ j f, funcs.get? j = some f → ∀ k v, lookupBB f.blocks k = some v →
        v ∈ bs ∧ v.entry = k := by
  intro fas
  induction fas with
  | nil =>
    intro bs funcs rest h
    simp only [decodeFuncsContig, Except.ok.injEq, Prod.mk.injEq] at h
    obtain ⟨h1, -⟩ := h
    subst h1
    intro j f hf
    simp at hf
  | cons fa0 fas' ih =>
    intro bs funcs rest h
    rw [decodeFuncsContig] at h
    cases hassign : assignBlocks fa0 (contigStop fas') bs (newFunc fa0) with
    | error e => simp only [hassign] at h; simp at h
    | ok p =>
      obtain ⟨f0, bs2⟩ := p
      simp only [hassign] at h
      cases hrec : decodeFuncsContig fas' bs2 with
      | error e => simp only [hrec] at h; simp at h
      | ok q =>
        obtain ⟨fs, bs3⟩ := q
        simp only [hrec] at h
        simp only [Except.ok.injEq, Prod.mk.injEq] at h
        obtain ⟨h1, -⟩ := h
        subst h1
        obtain ⟨pre, hsplit, -, -, hblk, -⟩ :=
          assignBlocks_ok _ _ bs (newFunc fa0) f0 bs2 hassign
        intro j f hf k v hv
        match j with
        | 0 =>
          simp only [List.get?_cons_zero, Option.some.injEq] at hf
          subst hf
          rw [hblk] at hv
          rcases lookupBB_foldl_inv pre _ k v hv with ⟨hmem, hent⟩ | hnil
          · exact ⟨hsplit ▸ List.mem_append_left bs2 hmem, hent⟩
          · simp [newFunc, lookupBB] at hnil
        | j + 1 =>
          simp only [List.get?_cons_succ] at hf
          obtain ⟨hmem, hent⟩ := ih bs2 fs bs3 hrec j f hf k v hv
          exact ⟨hsplit ▸ List.mem_append_right pre hmem, hent⟩

theorem decodeFuncsContig_assign :
    ∀ (fas : List Nat) (bs : List BasicBlock) (funcs : List Function) (rest : List BasicBlock),
      List.Pairwise (· < ·) fas →
      List.Pairwise (fun x y => x.entry < y.entry) bs →
      decodeFuncsContig fas bs = .ok (funcs, rest) →
      ∀ i fa f, fas.get? i = some fa → funcs.get? i = some f →
        ∀ b ∈ bs, fa ≤ b.entry → b.entry < endAt fas i →
          lookupBB f.blocks b.entry = some b := by
  intro fas
  induction fas with
  | nil =>
    intro bs funcs rest _ _ h i fa f hfa
    simp at hfa
  | cons fa0 fas' ih =>
    intro bs funcs rest hpwF hpwB h i fa f hfa hf b hb hge hlt
    rw [decodeFuncsContig] at h
    cases hassign : assignBlocks fa0 (contigStop fas') bs (newFunc fa0) with
    | error e => simp only [hassign] at h; simp at h
    | ok p =>
      obtain ⟨f0, bs2⟩ := p
      simp only [hassign] at h
      cases hrec : decodeFuncsContig fas' bs2 with
      | error e => simp only [hrec] at h; simp at h
      | ok q =>
        obtain ⟨fs, bs3⟩ := q
        simp only [hrec] at h
        simp only [Except.ok.injEq, Prod.mk.injEq] at h
        obtain ⟨h1, -⟩ := h
        subst h1
        obtain ⟨pre, hsplit, hwin, hent, hblk, hhead⟩ :=
          assignBlocks_ok _ _ bs (newFunc fa0) f0 bs2 hassign
        have hpwB2 : List.Pairwise (fun x y => x.entry < y.entry) bs2 :=
          List.Pairwise.sublist (hsplit ▸ List.sublist_append_right pre bs2) hpwB
        match i with
        | 0 =>
          simp only [List.get?_cons_zero, Option.some.injEq] at hfa hf
          subst hfa
          subst hf
          rw [← endAt_zero fa0 fas'] at hlt
          have hmem : b ∈ pre := by
            rcases List.mem_append.mp (hsplit ▸ hb) with h1 | h2
            · exact h1
            · exfalso
              cases bs2 with
              | nil => simp at h2
              | cons h0 t =>
                have hh0 : contigStop fas' ≤ h0.entry := hhead h0 rfl
                rcases List.mem_cons.mp h2 with h3 | h4
                · subst h3; omega
                · have := (List.pairwise_cons.mp hpwB2).1 b h4
                  omega
          rw [hblk]
          refine lookupBB_foldl_mem pre _ b ?_ hmem
          refine List.Pairwise.imp (fun hlt2 => Nat.ne_of_lt hlt2) ?_
          exact List.Pairwise.sublist (hsplit ▸ List.sublist_append_left pre bs2) hpwB
        | i + 1 =>
          simp only [List.get?_cons_succ] at hfa hf
          rw [endAt_succ] at hlt
          cases fas' with
          | nil => simp at hfa
          | cons fh t =>
            have hstople : fh ≤ fa := pairwise_head_le fh fa t i (List.pairwise_cons.mp hpwF).2 hfa
            have hmem2 : b ∈ bs2 := by
              rcases List.mem_append.mp (hsplit ▸ hb) with h1 | h2
              · exfalso
                have hlt2 := (hwin b h1).2
                have hcs : contigStop (fh :: t) = fh := rfl
                omega
              · exact h2
            exact ih bs2 fs bs3 (List.pairwise_cons.mp hpwF).2 hpwB2 hrec i fa f hfa hf b hmem2 hge hlt

theorem decodeFuncsContig_err_head
    (fa0 : Nat) (fas : List Nat) (b : BasicBlock) (bs : List BasicBlock)
    (hpwF : List.Pairwise (· < ·) (fa0 :: fas)) (hbound : fa0 < 4294967296)
    (hb : b.entry < fa0) :
    decodeFuncsContig (fa0 :: fas) (b :: bs) = .error errBlockOutsideFunc := by
  have hstop : fa0 ≤ contigStop fas := by
    cases fas with
    | nil => simp only [contigStop]; omega
    | cons fa2 t =>
      exact le_of_lt ((List.pairwise_cons.mp hpwF).1 fa2 (List.mem_cons_self fa2 t))
  rw [decodeFuncsContig, assignBlocks_err _ _ b bs (newFunc fa0) hb (by omega)]

theorem decodeFuncsContig_ok_of :
    ∀ (fas : List Nat) (bs : List BasicBlock),
      List.Pairwise (· < ·) fas →
      List.Pairwise (fun x y => x.entry < y.entry) bs →
      (∀ fa0 b0, fas.head? = some fa0 → bs.head? = some b0 → fa0 ≤ b0.entry) →
      ∃ res, decodeFuncsContig fas bs = .ok res := by
  intro fas
  induction fas with
  | nil => intro bs _ _ _; exact ⟨([], bs), rfl⟩
  | cons fa0 fas' ih =>
    intro bs hpwF hpwB hhead
    obtain ⟨⟨f0, bs2⟩, hassign⟩ :=
      assignBlocks_noErr fa0 (contigStop fas') bs (newFunc fa0)
        hpwB (fun b0 hb0 => hhead fa0 b0 rfl hb0)
    obtain ⟨pre, hsplit, -, -, -, hstop⟩ :=
      assignBlocks_ok _ _ bs (newFunc fa0) f0 bs2 hassign
    have hpwB2 : List.Pairwise (fun x y => x.entry < y.entry) bs2 :=
      List.Pairwise.sublist (hsplit ▸ List.sublist_append_right pre bs2) hpwB
    have hcond : ∀ fa2 b0, fas'.head? = some fa2 → bs2.head? = some b0 → fa2 ≤ b0.entry := by
      intro fa2 b0 hfa2 hb0
      cases fas' with
      | nil => simp at hfa2
      | cons fh t =>
        simp only [List.head?_cons, Option.some.injEq] at hfa2
        subst hfa2
        exact hstop b0 hb0
    obtain ⟨⟨fs, bs3⟩, hrec⟩ := ih bs2 (List.pairwise_cons.mp hpwF).2 hpwB2 hcond
    exact ⟨(f0 :: fs, bs3), by simp only [decodeFuncsContig, hassign, hrec]⟩

theorem blockFromAddr_some :
    ∀ (bs : List BasicBlock) (ba : Nat) (b : BasicBlock),
      blockFromAddr bs ba = some b → b ∈ bs ∧ b.entry = ba := by
  intro bs
  induction bs with
  | nil => intro ba b h; simp [blockFromAddr] at h
  | cons hd t ih =>
    intro ba b h
    rw [blockFromAddr] at h
    cases ht : blockFromAddr t ba with
    | some b2 =>
      rw [ht] at h
      simp only [Option.some.injEq] at h
      subst h
      obtain ⟨hmem, hent⟩ := ih ba _ ht
      exact ⟨List.mem_cons_of_mem hd hmem, hent⟩
    | none =>
      rw [ht] at h
      by_cases he : hd.entry = ba
      · rw [if_pos he] at h
        simp only [Option.some.injEq] at h
        subst h
        exact ⟨List.mem_cons_self hd t, he⟩
      · rw [if_neg he] at h
        simp at h

theorem blockFromAddr_none_iff :
    ∀ (bs : List BasicBlock) (ba : Nat),
      blockFromAddr bs ba = none ↔ ∀ b ∈ bs, b.entry ≠ ba := by
  intro bs
  induction bs with
  | nil => intro ba; simp [blockFromAddr]
  | cons hd t ih =>
    intro ba
    rw [blockFromAddr]
    cases ht : blockFromAddr t ba with
    | some b2 =>
      simp only [iff_false, List.mem_cons, ne_eq]
      constructor
      · intro h; simp at h
      · intro h
        obtain ⟨hmem, hent⟩ := blockFromAddr_some t ba b2 ht
        exact absurd hent (h b2 (Or.inr hmem))
    | none =>
      by_cases he : hd.entry = ba
      · rw [if_pos he]
        refine ⟨fun h => by simp at h, fun h => ?_⟩
        exact absurd he (h hd (List.mem_cons_self hd t))
      · rw [if_neg he]
        refine ⟨fun _ b hb => ?_, fun _ => rfl⟩
        rcases List.mem_cons.mp hb with h1 | h2
        · exact h1 ▸ he
        · exact (ih ba).mp ht b h2

theorem blockFromAddr_unique :
    ∀ (bs : List BasicBlock) (b : BasicBlock),
      List.Pairwise (fun x y => x.entry ≠ y.entry) bs → b ∈ bs →
      blockFromAddr bs b.entry = some b := by
  intro bs
  induction bs with
  | nil => intro b _ hb; simp at hb
  | cons hd t ih =>
    intro b hpw hb
    obtain ⟨hhd, hpt⟩ := List.pairwise_cons.mp hpw
    rw [blockFromAddr]
    rcases List.mem_cons.mp hb with h1 | h2
    · subst h1
      have hnone : blockFromAddr t b.entry = none := by
        rw [blockFromAddr_none_iff]
        intro b2 hb2 he
        exact hhd b2 hb2 he.symm
      rw [hnone, if_pos rfl]
    · rw [ih b hpt h2]

theorem funcIdx_some :
    ∀ (funcs : List Function) (fa : Nat) (i : Nat),
      funcIdx funcs fa = some i →
      ∃ f, funcs.get? i = some f ∧ f.entry = fa := by
  intro funcs
  induction funcs with
  | nil => intro fa i h; simp [funcIdx] at h
  | cons hd t ih =>
    intro fa i h
    rw [funcIdx] at h
    cases ht : funcIdx t fa with
    | some i2 =>
      rw [ht] at h
      simp only [Option.some.injEq] at h
      subst h
      obtain ⟨f, hf, hent⟩ := ih fa i2 ht
      exact ⟨f, by simpa using hf, hent⟩
    | none =>
      rw [ht] at h
      by_cases he : hd.entry = fa
      · rw [if_pos he] at h
        simp only [Option.some.injEq] at h
        subst h
        exact ⟨hd, rfl, he⟩
      · rw [if_neg he] at h
        simp at h

theorem funcIdx_none_iff :
    ∀ (funcs : List Function) (fa : Nat),
      funcIdx funcs fa = none ↔ ∀ f ∈ funcs, f.entry ≠ fa := by
  intro funcs
  induction funcs with
  | nil => intro fa; simp [funcIdx]
  | cons hd t ih =>
    intro fa
    rw [funcIdx]
    cases ht : funcIdx t fa with
    | some i =>
      simp only [iff_false, List.mem_cons, ne_eq]
      constructor
      · intro h; simp at h
      · intro h
        obtain ⟨f, hf, hent⟩ := funcIdx_some t fa i ht
        exact absurd hent (h f (Or.inr (List.get?_mem hf)))
    | none =>
      by_cases he : hd.entry = fa
      · rw [if_pos he]
        refine ⟨fun h => by simp at h, fun h => ?_⟩
        exact absurd he (h hd (List.mem_cons_self hd t))
      · rw [if_neg he]
        refine ⟨fun _ f hf => ?_, fun _ => rfl⟩
        rcases List.mem_cons.mp hf with h1 | h2
        · exact h1 ▸ he
        · exact (ih fa).mp ht f h2

theorem funcIdx_map_congr :
    ∀ (funcs funcs2 : List Function) (fa : Nat),
      funcs2.map Function.entry = funcs.map Function.entry →
      funcIdx funcs2 fa = funcIdx funcs fa := by
  intro funcs
  induction funcs with
  | nil =>
    intro funcs2 fa h
    simp only [List.map_nil, List.map_eq_nil_iff] at h
    subst h
    rfl
  | cons hd t ih =>
    intro funcs2 fa h
    cases funcs2 with
    | nil => simp at h
    | cons hd2 t2 =>
      simp only [List.map_cons, List.cons.injEq] at h
      obtain ⟨h1, h2⟩ := h
      rw [funcIdx, funcIdx, ih t2 fa h2, h1]

theorem setBlocks_map_entry (ba : Nat) (b : BasicBlock) :
    ∀ (funcs : List Function) (i : Nat),
      (setBlocks funcs i ba b).map Function.entry = funcs.map Function.entry := by
  intro funcs
  induction funcs with
  | nil => intro i; cases i <;> rfl
  | cons hd t ih =>
    intro i
    cases i with
    | zero => simp [setBlocks]
    | succ i2 => simp [setBlocks, ih i2]

theorem setBlocks_get (ba : Nat) (b : BasicBlock) :
    ∀ (funcs : List Function) (i j : Nat),
      (j = i → ∀ f, funcs.get? i = some f →
        (setBlocks funcs i ba b).get? j = some ⟨f.entry, mapInsert ba b f.blocks⟩) ∧
      (j ≠ i → (setBlocks funcs i ba b).get? j = funcs.get? j) := by
  intro funcs
  induction funcs with
  | nil =>
    intro i j
    constructor
    · intro hj f hf; simp at hf
    · intro hj; cases i <;> rfl
  | cons hd t ih =>
    intro i j
    cases i with
    | zero =>
      constructor
      · intro hj f hf
        subst hj
        simp only [List.get?_cons_zero, Option.some.injEq] at hf
        subst hf
        rfl
      · intro hj
        match j with
        | 0 => exact absurd rfl hj
        | j + 1 => rfl
    | succ i2 =>
      constructor
      · intro hj f hf
        subst hj
        simp only [List.get?_cons_succ] at hf ⊢
        exact (ih i2 i2).1 rfl f hf
      · intro hj
        match j with
        | 0 => rfl
        | j + 1 =>
          simp only [List.get?_cons_succ]
          exact (ih i2 j).2 (fun he => hj (by omega))

theorem addToFuncs_spec (ba : Nat) (b : BasicBlock) :
    ∀ (fas : List Nat) (funcs funcs2 : List Function),
      addToFuncs ba b fas funcs = .ok funcs2 →
      funcs2.map Function.entry = funcs.map Function.entry ∧
      (∀ j f2, funcs2.get? j = some f2 → ∃ f, funcs.get? j = some f ∧ f.entry = f2.entry ∧
        ∀ k, lookupBB f2.blocks k = lookupBB f.blocks k ∨
          (k = ba ∧ lookupBB f2.blocks k = some b)) ∧
      (∀ fa ∈ fas, ∃ j f2, funcs2.get? j = some f2 ∧ f2.entry = fa ∧
        lookupBB f2.blocks ba = some b) := by
  intro fas
  induction fas with
  | nil =>
    intro funcs funcs2 h
    simp only [addToFuncs, Except.ok.injEq] at h
    subst h
    refine ⟨rfl, ?_, by simp⟩
    intro j f2 hf2
    exact ⟨f2, hf2, rfl, fun k => Or.inl rfl⟩
  | cons fa0 rest ih =>
    intro funcs funcs2 h
    rw [addToFuncs] at h
    cases hidx : funcIdx funcs fa0 with
    | none => rw [hidx] at h; simp at h
    | some i =>
      rw [hidx] at h
      obtain ⟨hmap, hrel, hadd⟩ := ih (setBlocks funcs i ba b) funcs2 h
      obtain ⟨f, hfi, hent⟩ := funcIdx_some funcs fa0 i hidx
      have hset : (setBlocks funcs i ba b).get? i = some ⟨f.entry, mapInsert ba b f.blocks⟩ :=
        (setBlocks_get ba b funcs i i).1 rfl f hfi
      have hrel2 : ∀ j f2, funcs2.get? j = some f2 →
          ∃ f3, funcs.get? j = some f3 ∧ f3.entry = f2.entry ∧
            ∀ k, lookupBB f2.blocks k = lookupBB f3.blocks k ∨
              (k = ba ∧ lookupBB f2.blocks k = some b) := by
        intro j f2 hf2
        obtain ⟨f1, hf1, hent1, hrel1⟩ := hrel j f2 hf2
        by_cases hji : j = i
        · subst hji
          rw [hset] at hf1
          simp only [Option.some.injEq] at hf1
          refine ⟨f, hfi, by rw [← hent1, ← hf1], ?_⟩
          intro k
          rcases hrel1 k with h1 | h2
          · rw [h1, ← hf1]
            simp only [lookupBB_mapInsert]
            by_cases hk : ba = k
            · subst hk
              exact Or.inr ⟨rfl, by simp [lookupBB_mapInsert]⟩
            · rw [if_neg hk]
              exact Or.inl rfl
          · exact Or.inr h2
        · have : (setBlocks funcs i ba b).get? j = funcs.get? j :=
            (setBlocks_get ba b funcs i j).2 hji
          rw [this] at hf1
          exact ⟨f1, hf1, hent1, hrel1⟩
      refine ⟨by rw [hmap, setBlocks_map_entry], hrel2, ?_⟩
      intro fa hfa
      rcases List.mem_cons.mp hfa with h1 | h2
      · subst h1
        have hlen : funcs2.length = (setBlocks funcs i ba b).length := by
          have := congrArg List.length hmap
          simpa using this
        have hi : i < (setBlocks funcs i ba b).length := by
          rcases List.get?_eq_some.mp hset with ⟨hlt, -⟩
          exact hlt
        obtain ⟨f2, hf2⟩ : ∃ f2, funcs2.get? i = some f2 :=
          ⟨funcs2.get ⟨i, by omega⟩, List.get?_eq_get (by omega)⟩
        obtain ⟨f1, hf1, hent1, hrel1⟩ := hrel i f2 hf2
        rw [hset] at hf1
        simp only [Option.some.injEq] at hf1
        refine ⟨i, f2, hf2, by rw [← hent1, ← hf1]; exact hent, ?_⟩
        rcases hrel1 ba with h3 | h4
        · rw [h3, ← hf1]
          simp [lookupBB_mapInsert]
        · exact h4.2
      · exact hadd fa h2

theorem addToFuncs_err (ba : Nat) (b : BasicBlock) :
    ∀ (fas : List Nat) (funcs : List Function) (fa : Nat),
      fa ∈ fas → funcIdx funcs fa = none →
      addToFuncs ba b fas funcs = .error errMissingFunc := by
  intro fas
  induction fas with
  | nil => intro funcs fa hfa; simp at hfa
  | cons fa0 rest ih =>
    intro funcs fa hfa hnone
    rw [addToFuncs]
    rcases List.mem_cons.mp hfa with h1 | h2
    · subst h1
      rw [hnone]
    · cases hidx : funcIdx funcs fa0 with
      | none => rfl
      | some i =>
        have hcongr : funcIdx (setBlocks funcs i ba b) fa = funcIdx funcs fa :=
          funcIdx_map_congr funcs (setBlocks funcs i ba b) fa (setBlocks_map_entry ba b funcs i)
        exact ih (setBlocks funcs i ba b) fa h2 (hcongr ▸ hnone)

theorem addToFuncs_err_msg (ba : Nat) (b : BasicBlock) :
    ∀ (fas : List Nat) (funcs : List Function) (e : String),
      addToFuncs ba b fas funcs = .error e → e = errMissingFunc := by
  intro fas
  induction fas with
  | nil => intro funcs e h; simp [addToFuncs] at h
  | cons fa0 rest ih =>
    intro funcs e h
    rw [addToFuncs] at h
    cases hidx : funcIdx funcs fa0 with
    | none =>
      rw [hidx] at h
      simp only [Except.error.injEq] at h
      exact h.symm
    | some i =>
      rw [hidx] at h
      exact ih (setBlocks funcs i ba b) e h

theorem chunksPhase_spec (bs : List BasicBlock) :
    ∀ (chunks : List (Nat × List Nat)) (funcs funcs2 : List Function),
      chunksPhase bs chunks funcs = .ok funcs2 →
      funcs2.map Function.entry = funcs.map Function.entry ∧
      (∀ j f2, funcs2.get? j = some f2 → ∃ f, funcs.get? j = some f ∧ f.entry = f2.entry ∧
        ∀ k, lookupBB f2.blocks k = lookupBB f.blocks k ∨
          ∃ b2, blockFromAddr bs k = some b2 ∧ lookupBB f2.blocks k = some b2) ∧
      (∀ ba fas, (ba, fas) ∈ chunks → ∀ fa ∈ fas,
        ∃ j f2, funcs2.get? j = some f2 ∧ f2.entry = fa ∧
          ∃ b2, blockFromAddr bs ba = some b2 ∧ lookupBB f2.blocks ba = some b2) := by
  intro chunks
  induction chunks with
  | nil =>
    intro funcs funcs2 h
    simp only [chunksPhase, Except.ok.injEq] at h
    subst h
    refine ⟨rfl, ?_, by simp⟩
    intro j f2 hf2
    exact ⟨f2, hf2, rfl, fun k => Or.inl rfl⟩
  | cons c rest ih =>
    intro funcs funcs2 h
    obtain ⟨ba, fas⟩ := c
    rw [chunksPhase] at h
    cases hbfa : blockFromAddr bs ba with
    | none => simp only [hbfa] at h; simp at h
    | some b =>
      simp only [hbfa] at h
      cases hadd : addToFuncs ba b fas funcs with
      | error e => simp only [hadd] at h; simp at h
      | ok funcs1 =>
        simp only [hadd] at h
        obtain ⟨hmap1, hrel1, hadd1⟩ := addToFuncs_spec ba b fas funcs funcs1 hadd
        obtain ⟨hmap2, hrel2, hadd2⟩ := ih funcs1 funcs2 h
        have hrelc : ∀ j f2, funcs2.get? j = some f2 →
            ∃ f, funcs.get? j = some f ∧ f.entry = f2.entry ∧
              ∀ k, lookupBB f2.blocks k = lookupBB f.blocks k ∨
                ∃ b2, blockFromAddr bs k = some b2 ∧ lookupBB f2.blocks k = some b2 := by
          intro j f2 hf2
          obtain ⟨f1, hf1, hent2, hrelk2⟩ := hrel2 j f2 hf2
          obtain ⟨f0, hf0, hent1, hrelk1⟩ := hrel1 j f1 hf1
          refine ⟨f0, hf0, by rw [hent1, hent2], ?_⟩
          intro k
          rcases hrelk2 k with h1 | h2
          · rcases hrelk1 k with h3 | h4
            · exact Or.inl (by rw [h1, h3])
            · exact Or.inr ⟨b, h4.1 ▸ hbfa, by rw [h1]; exact h4.2⟩
          · exact Or.inr h2
        refine ⟨by rw [hmap2, hmap1], hrelc, ?_⟩
        intro ba2 fas2 hmem fa hfa
        rcases List.mem_cons.mp hmem with h1 | h2
        · have hba2 : ba2 = ba := congrArg Prod.fst h1
          have hfas2 : fas2 = fas := congrArg Prod.snd h1
          rw [hfas2] at hfa
          rw [hba2]
          obtain ⟨j, f1, hf1, hent1, hlk1⟩ := hadd1 fa hfa
          have hlen : funcs2.length = funcs1.length := by
            have := congrArg List.length hmap2
            simpa using this
          have hj : j < funcs1.length := by
            rcases List.get?_eq_some.mp hf1 with ⟨hlt, -⟩
            exact hlt
          obtain ⟨f2, hf2⟩ : ∃ f2, funcs2.get? j = some f2 :=
            ⟨funcs2.get ⟨j, by omega⟩, List.get?_eq_get (by omega)⟩
          obtain ⟨f1b, hf1b, hent2, hrelk2⟩ := hrel2 j f2 hf2
          rw [hf1] at hf1b
          simp only [Option.some.injEq] at hf1b
          subst hf1b
          refine ⟨j, f2, hf2, by rw [← hent2]; exact hent1, ?_⟩
          rcases hrelk2 ba with h3 | h4
          · exact ⟨b, hbfa, by rw [h3]; exact hlk1⟩
          · exact h4
        · exact hadd2 ba2 fas2 h2 fa hfa

theorem chunksPhase_err_msg (bs : List BasicBlock) :
    ∀ (chunks : List (Nat × List Nat)) (funcs : List Function) (e : String),
      chunksPhase bs chunks funcs = .error e →
      e = errMissingBlock ∨ e = errMissingFunc := by
  intro chunks
  induction chunks with
  | nil => intro funcs e h; simp [chunksPhase] at h
  | cons c rest ih =>
    intro funcs e h
    obtain ⟨ba, fas⟩ := c
    rw [chunksPhase] at h
    cases hbfa : blockFromAddr bs ba with
    | none =>
      simp only [hbfa] at h
      simp only [Except.error.injEq] at h
      exact Or.inl h.symm
    | some b =>
      simp only [hbfa] at h
      cases hadd : addToFuncs ba b fas funcs with
      | error e2 =>
        simp only [hadd] at h
        simp only [Except.error.injEq] at h
        exact Or.inr (h ▸ addToFuncs_err_msg ba b fas funcs e2 hadd)
      | ok funcs1 =>
        simp only [hadd] at h
        exact ih funcs1 e h

theorem chunksPhase_missingBlock (bs : List BasicBlock) :
    ∀ (chunks : List (Nat × List Nat)) (funcs : List Function) (ba : Nat) (fas : List Nat),
      (ba, fas) ∈ chunks → blockFromAddr bs ba = none →
      ∃ e, chunksPhase bs chunks funcs = .error e := by
  intro chunks
  induction chunks with
  | nil => intro funcs ba fas hmem; simp at hmem
  | cons c rest ih =>
    intro funcs ba fas hmem hnone
    obtain ⟨ba0, fas0⟩ := c
    rw [chunksPhase]
    cases hbfa : blockFromAddr bs ba0 with
    | none => exact ⟨errMissingBlock, rfl⟩
    | some b =>
      cases hadd : addToFuncs ba0 b fas0 funcs with
      | error e => exact ⟨e, by simp only [hadd]⟩
      | ok funcs1 =>
        simp only [hadd]
        rcases List.mem_cons.mp hmem with h1 | h2
        · exfalso
          have : ba0 = ba := congrArg Prod.fst h1.symm
          rw [this, hnone] at hbfa
          simp at hbfa
        · exact ih funcs1 ba fas h2 hnone

theorem chunksPhase_missingFunc (bs : List BasicBlock) :
    ∀ (chunks : List (Nat × List Nat)) (funcs : List Function) (ba fa : Nat) (fas : List Nat),
      (ba, fas) ∈ chunks → fa ∈ fas → (∀ f ∈ funcs, f.entry ≠ fa) →
      ∃ e, chunksPhase bs chunks funcs = .error e := by
  intro chunks
  induction chunks with
  | nil => intro funcs ba fa fas hmem; simp at hmem
  | cons c rest ih =>
    intro funcs ba fa fas hmem hfa hno
    obtain ⟨ba0, fas0⟩ := c
    rw [chunksPhase]
    cases hbfa : blockFromAddr bs ba0 with
    | none => exact ⟨errMissingBlock, rfl⟩
    | some b =>
      cases hadd : addToFuncs ba0 b fas0 funcs with
      | error e => exact ⟨e, by simp only [hadd]⟩
      | ok funcs1 =>
        simp only [hadd]
        rcases List.mem_cons.mp hmem with h1 | h2
        · exfalso
          have hba0 : ba0 = ba := congrArg Prod.fst h1.symm
          have hfas0 : fas0 = fas := congrArg Prod.snd h1.symm
          have herr := addToFuncs_err ba0 b fas0 funcs fa (hfas0 ▸ hfa)
            ((funcIdx_none_iff funcs fa).mpr hno)
          rw [herr] at hadd
          simp at hadd
        · refine Exists.imp (fun e he => he) (ih funcs1 ba fa fas h2 hfa ?_)
          intro f hf he
          obtain ⟨hmap1, -, -⟩ := addToFuncs_spec ba0 b fas0 funcs funcs1 hadd
          have hfmem : f.entry ∈ funcs1.map Function.entry := List.mem_map_of_mem Function.entry hf
          rw [hmap1] at hfmem
          obtain ⟨f0, hf0, hent0⟩ := List.mem_map.mp hfmem
          exact hno f0 hf0 (by rw [hent0, he])

theorem pairwise_get_lt :
    ∀ (l : List Nat) (i : Nat) (x y : Nat),
      List.Pairwise (· < ·) l → l.get? i = some x → l.get? (i + 1) = some y →
      x < y := by
  intro l
  induction l with
  | nil => intro i x y _ hx; simp at hx
  | cons hd t ih =>
    intro i x y hpw hx hy
    obtain ⟨hhd, hpt⟩ := List.pairwise_cons.mp hpw
    match i with
    | 0 =>
      simp only [List.get?_cons_zero, Option.some.injEq] at hx
      simp only [List.get?_cons_succ] at hy
      exact hx ▸ hhd y (List.get?_mem hy)
    | i + 1 =>
      simp only [List.get?_cons_succ] at hx hy
      exact ih i x y hpt hx hy

/-- C2: in the contiguous phase of decodeFuncs (funcAddrs ascending, window end
funcAddrs[i+1] or UINT32_MAX, monotone block cursor), every block whose entry
lies in [start_i, end_i) ends up assigned to function i under its entry
address (still present after the chunks phase), and decodeFuncs fails with the
block-before-function-start error exactly when the first block's entry lies
strictly below the first function address. -/
theorem decodeFuncs_contiguous_rule
    (funcAddrs : List Nat) (chunks : List (Nat × List Nat)) (blocks : List BasicBlock)
    (hF : List.Pairwise (· < ·) funcAddrs)
    (hB : List.Pairwise (fun x y => x.entry < y.entry) blocks)
    (hFb : ∀ a ∈ funcAddrs, a < 4294967296) :
    (∀ funcs, decodeFuncs funcAddrs chunks blocks = .ok funcs →
      ∀ i fa f, funcAddrs.get? i = some fa → funcs.get? i = some f →
        f.entry = fa ∧
        ∀ b ∈ blocks, fa ≤ b.entry → b.entry < endAt funcAddrs i →
          lookupBB f.blocks b.entry = some b) ∧
    (decodeFuncs funcAddrs chunks blocks = .error errBlockOutsideFunc ↔
      ∃ fa fas2 b bs2, funcAddrs = fa :: fas2 ∧ blocks = b :: bs2 ∧ b.entry < fa) := by
  have hBne : List.Pairwise (fun x y => x.entry ≠ y.entry) blocks :=
    List.Pairwise.imp (fun hlt => Nat.ne_of_lt hlt) hB
  constructor
  · intro funcs hok i fa f hfa hf
    cases hcontig : decodeFuncsContig funcAddrs blocks with
    | error e =>
      simp only [decodeFuncs, hcontig] at hok
      exact absurd hok (by simp)
    | ok p =>
      obtain ⟨funcs0, rest⟩ := p
      simp only [decodeFuncs, hcontig] at hok
      obtain ⟨hmap, hrel, -⟩ := chunksPhase_spec blocks chunks funcs0 funcs hok
      obtain ⟨f0, hf0, hent0, hrelk⟩ := hrel i f hf
      have hentries := decodeFuncsContig_entries funcAddrs blocks funcs0 rest hcontig
      have hf0e : f0.entry = fa := by
        have h1 : (funcs0.map Function.entry).get? i = some f0.entry := by
          rw [List.get?_map, hf0]
          rfl
        rw [hentries, hfa] at h1
        simp only [Option.some.injEq] at h1
        exact h1.symm
      refine ⟨by rw [← hent0, hf0e], ?_⟩
      intro b hb hge hlt
      have hassigned := decodeFuncsContig_assign funcAddrs blocks funcs0 rest hF hB hcontig
        i fa f0 hfa hf0 b hb hge hlt
      rcases hrelk b.entry with h1 | h2
      · rw [h1]
        exact hassigned
      · obtain ⟨b2, hbfa2, hlk2⟩ := h2
        have hself : blockFromAddr blocks b.entry = some b :=
          blockFromAddr_unique blocks b hBne hb
        rw [hself] at hbfa2
        simp only [Option.some.injEq] at hbfa2
        rw [hlk2, hbfa2]
  · constructor
    · intro herr
      cases hcontig : decodeFuncsContig funcAddrs blocks with
      | ok p =>
        obtain ⟨funcs0, rest⟩ := p
        simp only [decodeFuncs, hcontig] at herr
        rcases chunksPhase_err_msg blocks chunks funcs0 errBlockOutsideFunc herr with h1 | h1 <;>
          exact absurd h1 (by decide)
      | error e =>
        cases hfas : funcAddrs with
        | nil =>
          rw [hfas] at hcontig
          simp [decodeFuncsContig] at hcontig
        | cons fa fas2 =>
          cases hbs : blocks with
          | nil =>
            obtain ⟨res, hres⟩ := decodeFuncsContig_ok_of funcAddrs blocks
              hF hB (by intro fa0 b0 _ hb0; rw [hbs] at hb0; simp at hb0)
            rw [hres] at hcontig
            simp at hcontig
          | cons b bs2 =>
            by_cases hlt : b.entry < fa
            · exact ⟨fa, fas2, b, bs2, rfl, rfl, hlt⟩
            · have hcond : ∀ fa0 b0, funcAddrs.head? = some fa0 → blocks.head? = some b0 →
                  fa0 ≤ b0.entry := by
                intro fa0 b0 hfa0 hb0
                rw [hfas] at hfa0
                rw [hbs] at hb0
                simp only [List.head?_cons, Option.some.injEq] at hfa0 hb0
                subst hfa0
                subst hb0
                omega
              obtain ⟨res, hres⟩ := decodeFuncsContig_ok_of funcAddrs blocks hF hB hcond
              rw [hres] at hcontig
              simp at hcontig
    · intro hsh
      obtain ⟨fa, fas2, b, bs2, hfas, hbs, hlt⟩ := hsh
      subst hfas
      subst hbs
      have herr := decodeFuncsContig_err_head fa fas2 b bs2 hF
        (hFb fa (List.mem_cons_self fa fas2)) hlt
      simp only [decodeFuncs, herr]

/-- Witness for C2: two functions at 0x1000 and 0x1068, blocks at 0x1000 and
0x1002, no chunks. -/
theorem decodeFuncs_contiguous_rule_witness :
    List.Pairwise (· < ·) [4096, 4200] ∧
    List.Pairwise (fun x y => x.entry < y.entry) wBlocksC1 ∧
    (∀ a ∈ [4096, 4200], a < 4294967296) ∧
    ((∀ funcs, decodeFuncs [4096, 4200] [] wBlocksC1 = .ok funcs →
      ∀ i fa f, ([4096, 4200] : List Nat).get? i = some fa → funcs.get? i = some f →
        f.entry = fa ∧
        ∀ b ∈ wBlocksC1, fa ≤ b.entry → b.entry < endAt [4096, 4200] i →
          lookupBB f.blocks b.entry = some b) ∧
    (decodeFuncs [4096, 4200] [] wBlocksC1 = .error errBlockOutsideFunc ↔
      ∃ fa fas2 b bs2, ([4096, 4200] : List Nat) = fa :: fas2 ∧ wBlocksC1 = b :: bs2 ∧
        b.entry < fa)) :=
  ⟨by decide, by decide, by decide,
   decodeFuncs_contiguous_rule [4096, 4200] [] wBlocksC1 (by decide) (by decide) (by decide)⟩

/-- C4: on success of decodeFuncs every chunk pair (ba, fa) leaves the block
with entry ba under key ba in the function at fa; assignments made by the
contiguous phase survive the chunks phase unchanged (the mapping is additive);
a chunk whose block address is not the entry of any decoded block makes
decodeFuncs fail, with precisely the missing-block error once the contiguous
phase has succeeded; and a chunk function address outside funcAddrs makes
decodeFuncs fail, with precisely the missing-function error once the
contiguous phase has succeeded (single-chunk cases stated for the exact
message, since Go iterates the chunks map in unspecified order). -/
theorem decodeFuncs_chunks_rule
    (funcAddrs : List Nat) (chunks : List (Nat × List Nat)) (blocks : List BasicBlock)
    (hB : List.Pairwise (fun x y => x.entry < y.entry) blocks) :
    (∀ funcs, decodeFuncs funcAddrs chunks blocks = .ok funcs →
      ∀ ba fas, (ba, fas) ∈ chunks → ∀ fa ∈ fas,
        ∃ f, f ∈ funcs ∧ f.entry = fa ∧
          ∃ b, lookupBB f.blocks ba = some b ∧ b.entry = ba ∧ b ∈ blocks) ∧
    (∀ funcs0 rest funcs, decodeFuncsContig funcAddrs blocks = .ok (funcs0, rest) →
      chunksPhase blocks chunks funcs0 = .ok funcs →
      ∀ j f0 f k v, funcs0.get? j = some f0 → funcs.get? j = some f →
        lookupBB f0.blocks k = some v → lookupBB f.blocks k = some v) ∧
    (∀ ba fas, (ba, fas) ∈ chunks → (∀ b ∈ blocks, b.entry ≠ ba) →
      ∃ e, decodeFuncs funcAddrs chunks blocks = .error e) ∧
    (∀ ba fa fas, (ba, fas) ∈ chunks → fa ∈ fas → (∀ a ∈ funcAddrs, a ≠ fa) →
      ∃ e, decodeFuncs funcAddrs chunks blocks = .error e) ∧
    (∀ funcs0 rest ba fas, decodeFuncsContig funcAddrs blocks = .ok (funcs0, rest) →
      chunks = [(ba, fas)] → (∀ b ∈ blocks, b.entry ≠ ba) →
      decodeFuncs funcAddrs chunks blocks = .error errMissingBlock) ∧
    (∀ funcs0 rest ba b fa, decodeFuncsContig funcAddrs blocks = .ok (funcs0, rest) →
      chunks = [(ba, [fa])] → blockFromAddr blocks ba = some b →
      (∀ a ∈ funcAddrs, a ≠ fa) →
      decodeFuncs funcAddrs chunks blocks = .error errMissingFunc) := by
  have hBne : List.Pairwise (fun x y => x.entry ≠ y.entry) blocks :=
    List.Pairwise.imp (fun hlt => Nat.ne_of_lt hlt) hB
  refine ⟨?_, ?_, ?_, ?_, ?_, ?_⟩
  · intro funcs hok ba fas hmem fa hfa
    cases hcontig : decodeFuncsContig funcAddrs blocks with
    | error e =>
      simp only [decodeFuncs, hcontig] at hok
      exact absurd hok (by simp)
    | ok p =>
      obtain ⟨funcs0, rest⟩ := p
      simp only [decodeFuncs, hcontig] at hok
      obtain ⟨-, -, hadds⟩ := chunksPhase_spec blocks chunks funcs0 funcs hok
      obtain ⟨j, f2, hf2, hent2, b2, hbfa2, hlk2⟩ := hadds ba fas hmem fa hfa
      obtain ⟨hbmem, hbent⟩ := blockFromAddr_some blocks ba b2 hbfa2
      exact ⟨f2, List.get?_mem hf2, hent2, b2, hlk2, hbent, hbmem⟩
  · intro funcs0 rest funcs hcontig hchunks j f0 f k v hf0 hf hlk
    obtain ⟨-, hrel, -⟩ := chunksPhase_spec blocks chunks funcs0 funcs hchunks
    obtain ⟨f0b, hf0b, -, hrelk⟩ := hrel j f hf
    rw [hf0] at hf0b
    simp only [Option.some.injEq] at hf0b
    subst hf0b
    rcases hrelk k with h1 | h2
    · rw [h1]
      exact hlk
    · obtain ⟨b2, hbfa2, hlk2⟩ := h2
      obtain ⟨hvmem, hvent⟩ := decodeFuncsContig_values funcAddrs blocks funcs0 rest hcontig
        j f0 hf0 k v hlk
      have hself : blockFromAddr blocks k = some v := by
        rw [← hvent]
        exact blockFromAddr_unique blocks v hBne hvmem
      rw [hself] at hbfa2
      simp only [Option.some.injEq] at hbfa2
      rw [hlk2, hbfa2]
  · intro ba fas hmem hno
    cases hcontig : decodeFuncsContig funcAddrs blocks with
    | error e => exact ⟨e, by simp only [decodeFuncs, hcontig]⟩
    | ok p =>
      obtain ⟨funcs0, rest⟩ := p
      obtain ⟨e, he⟩ := chunksPhase_missingBlock blocks chunks funcs0 ba fas hmem
        ((blockFromAddr_none_iff blocks ba).mpr hno)
      exact ⟨e, by simp only [decodeFuncs, hcontig, he]⟩
  · intro ba fa fas hmem hfa hno
    cases hcontig : decodeFuncsContig funcAddrs blocks with
    | error e => exact ⟨e, by simp only [decodeFuncs, hcontig]⟩
    | ok p =>
      obtain ⟨funcs0, rest⟩ := p
      have hentries := decodeFuncsContig_entries funcAddrs blocks funcs0 rest hcontig
      have hno0 : ∀ f ∈ funcs0, f.entry ≠ fa := by
        intro f hf
        have hfmem : f.entry ∈ funcs0.map Function.entry :=
          List.mem_map_of_mem Function.entry hf
        rw [hentries] at hfmem
        exact hno f.entry hfmem
      obtain ⟨e, he⟩ := chunksPhase_missingFunc blocks chunks funcs0 ba fa fas hmem hfa hno0
      exact ⟨e, by simp only [decodeFuncs, hcontig, he]⟩
  · intro funcs0 rest ba fas hcontig hck hno
    subst hck
    have hnone : blockFromAddr blocks ba = none := (blockFromAddr_none_iff blocks ba).mpr hno
    simp only [decodeFuncs, hcontig, chunksPhase, hnone]
  · intro funcs0 rest ba b fa hcontig hck hbfa hno
    subst hck
    have hentries := decodeFuncsContig_entries funcAddrs blocks funcs0 rest hcontig
    have hidx : funcIdx funcs0 fa = none := by
      rw [funcIdx_none_iff]
      intro f hf
      have hfmem : f.entry ∈ funcs0.map Function.entry :=
        List.mem_map_of_mem Function.entry hf
      rw [hentries] at hfmem
      exact hno f.entry hfmem
    simp only [decodeFuncs, hcontig, chunksPhase, hbfa, addToFuncs, hidx]

/-- Witness for C4: block 0x1002 is claimed by the non-contiguous function at
0x1068 in addition to its contiguous owner at 0x1000. -/
theorem decodeFuncs_chunks_rule_witness :
    List.Pairwise (fun x y => x.entry < y.entry) wBlocksC1 ∧
    ((∀ funcs, decodeFuncs [4096, 4200] [(4098, [4200])] wBlocksC1 = .ok funcs →
      ∀ ba fas, (ba, fas) ∈ [(4098, [4200])] → ∀ fa ∈ fas,
        ∃ f, f ∈ funcs ∧ f.entry = fa ∧
          ∃ b, lookupBB f.blocks ba = some b ∧ b.entry = ba ∧ b ∈ wBlocksC1) ∧
    (∀ funcs0 rest funcs, decodeFuncsContig [4096, 4200] wBlocksC1 = .ok (funcs0, rest) →
      chunksPhase wBlocksC1 [(4098, [4200])] funcs0 = .ok funcs →
      ∀ j f0 f k v, funcs0.get? j = some f0 → funcs.get? j = some f →
        lookupBB f0.blocks k = some v → lookupBB f.blocks k = some v) ∧
    (∀ ba fas, (ba, fas) ∈ [(4098, [4200])] → (∀ b ∈ wBlocksC1, b.entry ≠ ba) →
      ∃ e, decodeFuncs [4096, 4200] [(4098, [4200])] wBlocksC1 = .error e) ∧
    (∀ ba fa fas, (ba, fas) ∈ [(4098, [4200])] → fa ∈ fas → (∀ a ∈ [4096, 4200], a ≠ fa) →
      ∃ e, decodeFuncs [4096, 4200] [(4098, [4200])] wBlocksC1 = .error e) ∧
    (∀ funcs0 rest ba fas, decodeFuncsContig [4096, 4200] wBlocksC1 = .ok (funcs0, rest) →
      [(4098, [4200])] = [(ba, fas)] → (∀ b ∈ wBlocksC1, b.entry ≠ ba) →
      decodeFuncs [4096, 4200] [(4098, [4200])] wBlocksC1 = .error errMissingBlock) ∧
    (∀ funcs0 rest ba b fa, decodeFuncsContig [4096, 4200] wBlocksC1 = .ok (funcs0, rest) →
      [(4098, [4200])] = [(ba, [fa])] → blockFromAddr wBlocksC1 ba = some b →
      (∀ a ∈ [4096, 4200], a ≠ fa) →
      decodeFuncs [4096, 4200] [(4098, [4200])] wBlocksC1 = .error errMissingFunc)) :=
  ⟨by decide, decodeFuncs_chunks_rule [4096, 4200] [(4098, [4200])] wBlocksC1 (by decide)⟩

/-- Single RET block at address 0xFFFFFFFF (UINT32_MAX). -/
def cexBlock : BasicBlock := ⟨[⟨4294967295, Op.RET, 1, []⟩]⟩

/-- Counterexample to C5 as stated: with funcAddrs = [0xFFFFFFFF] (sorted,
unique, below 2^32) and a decoded block at that same address (so funcAddrs is
a subset of the block entries), decodeFuncs succeeds yet returns a function
whose block map is empty: the contiguous window [0xFFFFFFFF, MaxUint32) is
empty because the sentinel end bound MaxUint32 is used as an exclusive limit,
so the entry block at 0xFFFFFFFF is never assigned. -/
theorem decodeFuncs_entry_block_cex :
    List.Pairwise (· < ·) [4294967295] ∧
    List.Pairwise (fun x y => x.entry < y.entry) [cexBlock] ∧
    (∀ fa ∈ [4294967295], ∃ b, b ∈ [cexBlock] ∧ BasicBlock.entry b = fa) ∧
    decodeFuncs [4294967295] [] [cexBlock] = .ok [⟨4294967295, []⟩] ∧
    (⟨4294967295, []⟩ : Function).blocks = [] ∧
    lookupBB (⟨4294967295, []⟩ : Function).blocks 4294967295 = none := by
  refine ⟨by decide, by decide, by decide, rfl, rfl, rfl⟩

/-- C5 amended: under the precondition funcAddrs ⊆ block entries and the extra
condition (forced by the counterexample) that every function address is
strictly below UINT32_MAX = 2^32 - 1, a successful decodeFuncs returns
functions in funcAddrs order (hence ascending) and every returned function has
a non-empty block map containing a block under its own entry address. -/
theorem decodeFuncs_entry_block
    (funcAddrs : List Nat) (chunks : List (Nat × List Nat)) (blocks : List BasicBlock)
    (hF : List.Pairwise (· < ·) funcAddrs)
    (hB : List.Pairwise (fun x y => x.entry < y.entry) blocks)
    (hFmax : ∀ a ∈ funcAddrs, a < 4294967295)
    (hsub : ∀ fa ∈ funcAddrs, ∃ b, b ∈ blocks ∧ BasicBlock.entry b = fa) :
    ∀ funcs, decodeFuncs funcAddrs chunks blocks = .ok funcs →
      funcs.map Function.entry = funcAddrs ∧
      ∀ f ∈ funcs, f.blocks ≠ [] ∧
        ∃ b, lookupBB f.blocks f.entry = some b ∧ b.entry = f.entry := by
  intro funcs hok
  cases hcontig : decodeFuncsContig funcAddrs blocks with
  | error e =>
    simp only [decodeFuncs, hcontig] at hok
    exact absurd hok (by simp)
  | ok p =>
    obtain ⟨funcs0, rest⟩ := p
    simp only [decodeFuncs, hcontig] at hok
    obtain ⟨hmap, hrel, -⟩ := chunksPhase_spec blocks chunks funcs0 funcs hok
    have hentries := decodeFuncsContig_entries funcAddrs blocks funcs0 rest hcontig
    refine ⟨by rw [hmap, hentries], ?_⟩
    intro f hf
    obtain ⟨j, hj⟩ := List.mem_iff_get?.mp hf
    obtain ⟨f0, hf0, hent0, hrelk⟩ := hrel j f hj
    have hfa : funcAddrs.get? j = some f0.entry := by
      rw [← hentries, List.get?_map, hf0]
      rfl
    obtain ⟨bstar, hbmem, hbent⟩ := hsub f0.entry (List.get?_mem hfa)
    have hend : BasicBlock.entry bstar < endAt funcAddrs j := by
      rw [hbent]
      unfold endAt
      cases hnext : funcAddrs.get? (j + 1) with
      | some fa2 => exact pairwise_get_lt funcAddrs j f0.entry fa2 hF hfa hnext
      | none => exact hFmax f0.entry (List.get?_mem hfa)
    have hassigned := decodeFuncsContig_assign funcAddrs blocks funcs0 rest hF hB hcontig
      j f0.entry f0 hfa hf0 bstar hbmem (le_of_eq hbent.symm) hend
    rw [hbent] at hassigned
    have hlk : ∃ b, lookupBB f.blocks f0.entry = some b ∧ b.entry = f0.entry := by
      rcases hrelk f0.entry with h1 | h2
      · exact ⟨bstar, by rw [h1]; exact hassigned, hbent⟩
      · obtain ⟨b2, hbfa2, hlk2⟩ := h2
        obtain ⟨-, hb2ent⟩ := blockFromAddr_some blocks f0.entry b2 hbfa2
        exact ⟨b2, hlk2, hb2ent⟩
    rw [← hent0]
    obtain ⟨b, hb1, hb2⟩ := hlk
    refine ⟨?_, b, hb1, hb2⟩
    intro hnil
    rw [hnil] at hb1
    simp [lookupBB] at hb1

/-- Witness for the amended C5: two functions whose entry blocks are the two
decoded blocks. -/
theorem decodeFuncs_entry_block_witness :
    List.Pairwise (· < ·) [4096, 4098] ∧
    List.Pairwise (fun x y => x.entry < y.entry) wBlocksC1 ∧
    (∀ a ∈ [4096, 4098], a < 4294967295) ∧
    (∀ fa ∈ [4096, 4098], ∃ b, b ∈ wBlocksC1 ∧ BasicBlock.entry b = fa) ∧
    (∀ funcs, decodeFuncs [4096, 4098] [] wBlocksC1 = .ok funcs →
      funcs.map Function.entry = [4096, 4098] ∧
      ∀ f ∈ funcs, f.blocks ≠ [] ∧
        ∃ b, lookupBB f.blocks f.entry = some b ∧ b.entry = f.entry) :=
  ⟨by decide, by decide, by decide, by decide,
   decodeFuncs_entry_block [4096, 4098] [] wBlocksC1 (by decide) (by decide) (by decide)
     (by decide)⟩

/-- Uppercase hexadecimal digit character for a value below 16, as produced by
the %X verb of fmt.Sprintf. -/
def hexDigitU (n : Nat) : Char :=
  if n < 10 then Char.ofNat (48 + n) else Char.ofNat (55 + n)

/-- Fixed-width zero-padded uppercase hexadecimal digits of a, most
significant first: the output of the %0nX verb for a < 16^n. -/
def hexN : Nat → Nat → List Char
  | 0, _ => []
  | n + 1, a => hexN n (a / 16) ++ [hexDigitU (a % 16)]

/-- Addr.String from the source: fmt.Sprintf("0x%08X", uint32(v)), eight
zero-padded uppercase hex digits after the 0x prefix. -/
def addrToString (a : Nat) : String := ⟨'0' :: 'x' :: hexN 8 a⟩

/-- Value of one hexadecimal digit character as strconv.ParseUint with base 16
accepts it: 0-9, a-f and A-F. -/
def hexVal (c : Char) : Option Nat :=
  if 48 ≤ c.toNat ∧ c.toNat ≤ 57 then some (c.toNat - 48)
  else if 97 ≤ c.toNat ∧ c.toNat ≤ 102 then some (c.toNat - 87)
  else if 65 ≤ c.toNat ∧ c.toNat ≤ 70 then some (c.toNat - 55)
  else none

/-- Value of one decimal digit character (base 10 of strconv.ParseUint). -/
def decDigitVal (c : Char) : Option Nat :=
  if 48 ≤ c.toNat ∧ c.toNat ≤ 57 then some (c.toNat - 48) else none

/-- Digit-accumulation loop of strconv.ParseUint: fail on the first invalid
character, otherwise fold acc * base + digit. -/
def parseNatDigits (dv : Char → Option Nat) (base : Nat) : Nat → List Char → Option Nat
  | acc, [] => some acc
  | acc, c :: rest =>
    match dv c with
    | none => none
    | some d => parseNatDigits dv base (acc * base + d) rest

/-- strconv.ParseUint(s, base, 32): an empty string, an invalid digit, or a
value that does not fit in 32 bits is an error. -/
def parseCore (dv : Char → Option Nat) (base : Nat) (l : List Char) : Option Nat :=
  if l = [] then none
  else
    match parseNatDigits dv base 0 l with
    | none => none
    | some x => if x < 4294967296 then some x else none

/-- parseUint32 from the source: base 10 by default, base 16 when the string
begins with 0x or 0X (the prefix is stripped); the result must fit in 32
bits. -/
def parseUint32 (s : String) : Option Nat :=
  match s.data with
  | c0 :: c1 :: rest =>
    if c0 = '0' ∧ (c1 = 'x' ∨ c1 = 'X') then parseCore hexVal 16 rest
    else parseCore decDigitVal 10 s.data
  | _ => parseCore decDigitVal 10 s.data

theorem hexVal_hexDigitU : ∀ d, d < 16 → hexVal (hexDigitU d) = some d := by decide

/-- The sixteen uppercase hexadecimal digit characters. -/
def hexUpperDigits : List Char :=
  ['0', '1', '2', '3', '4', '5', '6', '7', '8', '9', 'A', 'B', 'C', 'D', 'E', 'F']

theorem hexDigitU_mem : ∀ d, d < 16 → hexDigitU d ∈ hexUpperDigits := by decide

theorem hexN_length : ∀ (n a : Nat), (hexN n a).length = n := by
  intro n
  induction n with
  | zero => intro a; rfl
  | succ n ih => intro a; simp [hexN, ih]

theorem hexN_mem : ∀ (n a : Nat), ∀ c ∈ hexN n a, ∃ d, d < 16 ∧ c = hexDigitU d := by
  intro n
  induction n with
  | zero => intro a c hc; simp [hexN] at hc
  | succ n ih =>
    intro a c hc
    rw [hexN] at hc
    rcases List.mem_append.mp hc with h1 | h2
    · exact ih (a / 16) c h1
    · simp only [List.mem_singleton] at h2
      exact ⟨a % 16, Nat.mod_lt a (by omega), h2⟩

theorem parseNatDigits_append (dv : Char → Option Nat) (base : Nat) :
    ∀ (l1 l2 : List Char) (acc : Nat),
      parseNatDigits dv base acc (l1 ++ l2) =
        match parseNatDigits dv base acc l1 with
        | none => none
        | some acc2 => parseNatDigits dv base acc2 l2 := by
  intro l1
  induction l1 with
  | nil => intro l2 acc; rfl
  | cons c t ih =>
    intro l2 acc
    simp only [List.cons_append, parseNatDigits]
    cases hdv : dv c with
    | none => rfl
    | some d => exact ih l2 (acc * base + d)

theorem parseNatDigits_hexN :
    ∀ (n acc a : Nat), a < 16 ^ n →
      parseNatDigits hexVal 16 acc (hexN n a) = some (acc * 16 ^ n + a) := by
  intro n
  induction n with
  | zero =>
    intro acc a ha
    simp only [pow_zero] at ha
    have ha0 : a = 0 := by omega
    subst ha0
    simp [hexN, parseNatDigits]
  | succ n ih =>
    intro acc a ha
    rw [hexN, parseNatDigits_append]
    have h1 : a / 16 < 16 ^ n := by
      rw [Nat.div_lt_iff_lt_mul (by omega)]
      rw [pow_succ] at ha
      exact ha
    rw [ih acc (a / 16) h1]
    have hd := hexVal_hexDigitU (a % 16) (Nat.mod_lt a (by omega))
    simp only [parseNatDigits, hd, Option.some.injEq]
    have hmod := Nat.div_add_mod a 16
    calc (acc * 16 ^ n + a / 16) * 16 + a % 16
        = acc * (16 ^ n * 16) + (a / 16 * 16 + a % 16) := by ring
      _ = acc * 16 ^ (n + 1) + a := by rw [← pow_succ]; omega

/-- C7: Addr.String produces exactly 0x followed by eight zero-padded
uppercase hexadecimal digits, and parseUint32 applied to that string (0x
prefix detected, remainder parsed in base 16) returns the address back. -/
theorem addrString_roundtrip (a : Nat) (ha : a < 4294967296) :
    (addrToString a).data = '0' :: 'x' :: hexN 8 a ∧
    (hexN 8 a).length = 8 ∧
    (∀ c ∈ hexN 8 a, c ∈ hexUpperDigits) ∧
    parseUint32 (addrToString a) = some a := by
  refine ⟨rfl, hexN_length 8 a, ?_, ?_⟩
  · intro c hc
    obtain ⟨d, hd, hcd⟩ := hexN_mem 8 a c hc
    exact hcd ▸ hexDigitU_mem d hd
  · have hstep : parseUint32 (addrToString a) = parseCore hexVal 16 (hexN 8 a) := by
      simp [parseUint32, addrToString]
    rw [hstep]
    have hne : hexN 8 a ≠ [] := by
      intro h
      have := hexN_length 8 a
      rw [h] at this
      simp at this
    rw [parseCore, if_neg hne]
    have hpow : a < 16 ^ 8 := by
      have : (16 : Nat) ^ 8 = 4294967296 := by norm_num
      omega
    rw [parseNatDigits_hexN 8 0 a hpow]
    simp only [Nat.zero_mul, Nat.zero_add]
    rw [if_pos ha]

/-- Witness for C7 at the address 0x00401000. -/
theorem addrString_roundtrip_witness :
    4198400 < 4294967296 ∧
    ((addrToString 4198400).data = '0' :: 'x' :: hexN 8 4198400 ∧
     (hexN 8 4198400).length = 8 ∧
     (∀ c ∈ hexN 8 4198400, c ∈ hexUpperDigits) ∧
     parseUint32 (addrToString 4198400) = some 4198400) :=
  ⟨by decide, addrString_roundtrip 4198400 (by decide)⟩

/-- strconv.Unquote restricted to double-quoted strings whose body contains no
interior quote and no escape sequence (the only shapes oracle address strings
take): strip the surrounding quotes, fail otherwise. -/
def unquoteSimple (s : List Char) : Option (List Char) :=
  match s with
  | c0 :: rest =>
    if c0 = '"' ∧ rest.getLast? = some '"' ∧
        rest.dropLast.all (fun c => !(c == '"') && !(c == '\\')) = true then
      some rest.dropLast
    else none
  | [] => none

/-- Addr.UnmarshalJSON from the source: unquote the JSON bytes, require the
lowercase 0x prefix (else the invalid-hex-representation error), parse the
remainder with strconv.ParseUint(s, 16, 32). -/
def addrUnmarshalJSON (bytes : String) : Option Nat :=
  match unquoteSimple bytes.data with
  | none => none
  | some s =>
    match s with
    | c0 :: c1 :: rest => if c0 = '0' ∧ c1 = 'x' then parseCore hexVal 16 rest else none
    | _ => none

/-- Numeric value of a list of hexadecimal digit characters, most significant
first. -/
def hexValOf (ds : List Char) : Nat :=
  ds.foldl (fun a c => a * 16 + (hexVal c).getD 0) 0

theorem hexVal_lt (c : Char) (d : Nat) (h : hexVal c = some d) : d < 16 := by
  unfold hexVal at h
  by_cases h1 : 48 ≤ c.toNat ∧ c.toNat ≤ 57
  · rw [if_pos h1] at h
    simp only [Option.some.injEq] at h
    omega
  · rw [if_neg h1] at h
    by_cases h2 : 97 ≤ c.toNat ∧ c.toNat ≤ 102
    · rw [if_pos h2] at h
      simp only [Option.some.injEq] at h
      omega
    · rw [if_neg h2] at h
      by_cases h3 : 65 ≤ c.toNat ∧ c.toNat ≤ 70
      · rw [if_pos h3] at h
        simp only [Option.some.injEq] at h
        omega
      · rw [if_neg h3] at h
        simp at h

theorem hexVal_isSome_ne (c : Char) (h : (hexVal c).isSome = true) :
    c ≠ '"' ∧ c ≠ '\\' := by
  refine ⟨fun he => ?_, fun he => ?_⟩
  · rw [he] at h
    exact absurd h (by decide)
  · rw [he] at h
    exact absurd h (by decide)

theorem unquoteSimple_wrap (l : List Char) (hl : ∀ c ∈ l, c ≠ '"' ∧ c ≠ '\\') :
    unquoteSimple ('"' :: (l ++ ['"'])) = some l := by
  have hlast : (l ++ ['"']).getLast? = some '"' := by
    rw [List.getLast?_concat]
  have hdrop : (l ++ ['"']).dropLast = l := by
    rw [List.dropLast_concat]
  rw [unquoteSimple, if_pos, hdrop]
  refine ⟨rfl, hlast, ?_⟩
  rw [hdrop, List.all_eq_true]
  intro c hc
  obtain ⟨h1, h2⟩ := hl c hc
  simp [h1, h2]

theorem parseNatDigits_valid :
    ∀ (ds : List Char) (acc : Nat), (∀ c ∈ ds, (hexVal c).isSome = true) →
      parseNatDigits hexVal 16 acc ds =
        some (ds.foldl (fun a c => a * 16 + (hexVal c).getD 0) acc) := by
  intro ds
  induction ds with
  | nil => intro acc _; rfl
  | cons c t ih =>
    intro acc hall
    cases hv : hexVal c with
    | none =>
      have := hall c (List.mem_cons_self c t)
      rw [hv] at this
      simp at this
    | some d =>
      simp only [parseNatDigits, hv, List.foldl_cons, Option.getD_some]
      exact ih (acc * 16 + d) (fun c2 hc2 => hall c2 (List.mem_cons_of_mem c hc2))

theorem foldl_hex_bound :
    ∀ (ds : List Char) (acc B : Nat), (∀ c ∈ ds, (hexVal c).isSome = true) → acc < B →
      ds.foldl (fun a c => a * 16 + (hexVal c).getD 0) acc < B * 16 ^ ds.length := by
  intro ds
  induction ds with
  | nil =>
    intro acc B _ hacc
    simpa using hacc
  | cons c t ih =>
    intro acc B hall hacc
    have hsome := hall c (List.mem_cons_self c t)
    obtain ⟨d, hd⟩ := Option.isSome_iff_exists.mp hsome
    have hdlt : d < 16 := hexVal_lt c d hd
    simp only [List.foldl_cons, hd, Option.getD_some, List.length_cons]
    calc t.foldl (fun a c => a * 16 + (hexVal c).getD 0) (acc * 16 + d)
        < (acc * 16 + d + 1) * 16 ^ t.length :=
          ih (acc * 16 + d) (acc * 16 + d + 1)
            (fun c2 hc2 => hall c2 (List.mem_cons_of_mem c hc2)) (by omega)
      _ ≤ (B * 16) * 16 ^ t.length := Nat.mul_le_mul_right _ (by omega)
      _ = B * 16 ^ (t.length + 1) := by rw [pow_succ]; ring

/-- C8: Addr.UnmarshalJSON rejects every quoted address string that does not
begin with the (lowercase) 0x prefix; it accepts 0x followed by 1 to 8 hex
digits, giving the digits' value, which always fits in 32 bits; and a
hexadecimal payload whose value needs more than 32 bits is an error. -/
theorem addrUnmarshalJSON_spec
    (s ds : List Char)
    (hs : ∀ c ∈ s, c ≠ '"' ∧ c ≠ '\\')
    (hpre : ∀ rest : List Char, s ≠ '0' :: 'x' :: rest)
    (hds1 : ds ≠ [])
    (hds8 : ds.length ≤ 8)
    (hdshex : ∀ c ∈ ds, (hexVal c).isSome = true) :
    addrUnmarshalJSON ⟨'"' :: (s ++ ['"'])⟩ = none ∧
    addrUnmarshalJSON ⟨'"' :: (('0' :: 'x' :: ds) ++ ['"'])⟩ = some (hexValOf ds) ∧
    hexValOf ds < 4294967296 ∧
    (∀ ds2 : List Char, (∀ c ∈ ds2, (hexVal c).isSome = true) →
      4294967296 ≤ hexValOf ds2 →
      addrUnmarshalJSON ⟨'"' :: (('0' :: 'x' :: ds2) ++ ['"'])⟩ = none) := by
  have hbound : hexValOf ds < 4294967296 := by
    have h1 : hexValOf ds < 1 * 16 ^ ds.length := foldl_hex_bound ds 0 1 hdshex (by omega)
    have h2 : (16 : Nat) ^ ds.length ≤ 16 ^ 8 := Nat.pow_le_pow_right (by omega) hds8
    have h3 : (16 : Nat) ^ 8 = 4294967296 := by norm_num
    omega
  refine ⟨?_, ?_, hbound, ?_⟩
  · have hu : unquoteSimple ('"' :: (s ++ ['"'])) = some s := unquoteSimple_wrap s hs
    show (match unquoteSimple ('"' :: (s ++ ['"'])) with
      | none => none
      | some s2 =>
        match s2 with
        | c0 :: c1 :: rest => if c0 = '0' ∧ c1 = 'x' then parseCore hexVal 16 rest else none
        | _ => none) = none
    rw [hu]
    match s, hpre with
    | [], _ => rfl
    | [c0], _ => rfl
    | c0 :: c1 :: rest, hpre =>
      simp only
      rw [if_neg]
      intro ⟨h0, h1⟩
      exact hpre rest (by rw [h0, h1])
  · have hsafe : ∀ c ∈ ('0' :: 'x' :: ds), c ≠ '"' ∧ c ≠ '\\' := by
      intro c hc
      rcases List.mem_cons.mp hc with h1 | hc2
      · subst h1; exact ⟨by decide, by decide⟩
      rcases List.mem_cons.mp hc2 with h2 | hc3
      · subst h2; exact ⟨by decide, by decide⟩
      · exact hexVal_isSome_ne c (hdshex c hc3)
    have hu := unquoteSimple_wrap ('0' :: 'x' :: ds) hsafe
    show (match unquoteSimple ('"' :: (('0' :: 'x' :: ds) ++ ['"'])) with
      | none => none
      | some s2 =>
        match s2 with
        | c0 :: c1 :: rest => if c0 = '0' ∧ c1 = 'x' then parseCore hexVal 16 rest else none
        | _ => none) = some (hexValOf ds)
    rw [hu]
    simp only
    rw [if_pos (by simp), parseCore, if_neg hds1, parseNatDigits_valid ds 0 hdshex]
    have hbound2 : List.foldl (fun a c => a * 16 + (hexVal c).getD 0) 0 ds < 4294967296 :=
      hbound
    show (if List.foldl (fun a c => a * 16 + (hexVal c).getD 0) 0 ds < 4294967296 then
        some (List.foldl (fun a c => a * 16 + (hexVal c).getD 0) 0 ds) else none) =
      some (hexValOf ds)
    rw [if_pos hbound2]
    rfl
  · intro ds2 hall hbig
    have hsafe : ∀ c ∈ ('0' :: 'x' :: ds2), c ≠ '"' ∧ c ≠ '\\' := by
      intro c hc
      rcases List.mem_cons.mp hc with h1 | hc2
      · subst h1; exact ⟨by decide, by decide⟩
      rcases List.mem_cons.mp hc2 with h2 | hc3
      · subst h2; exact ⟨by decide, by decide⟩
      · exact hexVal_isSome_ne c (hall c hc3)
    have hu := unquoteSimple_wrap ('0' :: 'x' :: ds2) hsafe
    show (match unquoteSimple ('"' :: (('0' :: 'x' :: ds2) ++ ['"'])) with
      | none => none
      | some s2 =>
        match s2 with
        | c0 :: c1 :: rest => if c0 = '0' ∧ c1 = 'x' then parseCore hexVal 16 rest else none
        | _ => none) = none
    rw [hu]
    simp only
    rw [if_pos (by simp), parseCore]
    by_cases hnil : ds2 = []
    · rw [if_pos hnil]
    · rw [if_neg hnil, parseNatDigits_valid ds2 0 hall]
      have hbig2 : 4294967296 ≤ List.foldl (fun a c => a * 16 + (hexVal c).getD 0) 0 ds2 :=
        hbig
      show (if List.foldl (fun a c => a * 16 + (hexVal c).getD 0) 0 ds2 < 4294967296 then
          some (List.foldl (fun a c => a * 16 + (hexVal c).getD 0) 0 ds2) else none) =
        none
      rw [if_neg (by omega)]

/-- Witness for C8: the unprefixed payload 40 is rejected, the payload
0x00401000 parses to 0x00401000. -/
theorem addrUnmarshalJSON_spec_witness :
    (∀ c ∈ ['4', '0'], c ≠ '"' ∧ c ≠ '\\') ∧
    (∀ rest : List Char, ['4', '0'] ≠ '0' :: 'x' :: rest) ∧
    (['0', '0', '4', '0', '1', '0', '0', '0'] : List Char) ≠ [] ∧
    (['0', '0', '4', '0', '1', '0', '0', '0'] : List Char).length ≤ 8 ∧
    (∀ c ∈ ['0', '0', '4', '0', '1', '0', '0', '0'], (hexVal c).isSome = true) ∧
    (addrUnmarshalJSON ⟨'"' :: (['4', '0'] ++ ['"'])⟩ = none ∧
     addrUnmarshalJSON ⟨'"' :: (('0' :: 'x' :: ['0', '0', '4', '0', '1', '0', '0', '0']) ++ ['"'])⟩ =
       some (hexValOf ['0', '0', '4', '0', '1', '0', '0', '0']) ∧
     hexValOf ['0', '0', '4', '0', '1', '0', '0', '0'] < 4294967296 ∧
     (∀ ds2 : List Char, (∀ c ∈ ds2, (hexVal c).isSome = true) →
       4294967296 ≤ hexValOf ds2 →
       addrUnmarshalJSON ⟨'"' :: (('0' :: 'x' :: ds2) ++ ['"'])⟩ = none)) :=
  ⟨by decide, by intro rest h; simp at h, by decide, by decide, by decide,
   addrUnmarshalJSON_spec ['4', '0'] ['0', '0', '4', '0', '1', '0', '0', '0']
     (by decide) (by intro rest h; simp at h) (by decide) (by decide) (by decide)⟩

/-- The three oracle files as the lifter sees them through osutil.Exists and
jsonutil.ParseFile (both external): `none` when the file is absent,
`some (.error e)` when present but malformed, `some (.ok v)` when parsed. -/
structure OracleFiles where
  funcsFile : Option (Except String (List Nat))
  blocksFile : Option (Except String (List Nat))
  chunksFile : Option (Except String (List (Nat × List Nat)))

/-- The oracle collections held by the lifter after newLifter. -/
structure Lifter where
  funcAddrs : List Nat
  blockAddrs : List Nat
  chunks : List (Nat × List Nat)
deriving DecidableEq, Repr

/-- parseJSON from the source: an absent file emits a warning (the Bool) and
leaves the collection at its current value, returning no error; a present
file yields the result of parsing it. -/
def parseJSON {α : Type} (file : Option (Except String α)) (current : α) :
    Except String (α × Bool) :=
  match file with
  | none => .ok (current, true)
  | some (.ok v) => .ok (v, false)
  | some (.error e) => .error e

/-- Insertion into an ascending list. -/
def insertSorted (x : Nat) : List Nat → List Nat
  | [] => [x]
  | y :: rest => if x ≤ y then x :: y :: rest else y :: insertSorted x rest

/-- sort.Sort on Addrs: sort the addresses ascending. -/
def sortAddrs (l : List Nat) : List Nat := l.foldr insertSorted []

/-- newLifter from the source: parse funcs.json and sort, parse blocks.json
and sort, parse chunks.json; any parse error aborts.  The Nat counts the
missing-file warnings emitted along the way. -/
def newLifter (files : OracleFiles) : Except String (Lifter × Nat) :=
  match parseJSON files.funcsFile [] with
  | .error e => .error e
  | .ok (fa, w1) =>
    match parseJSON files.blocksFile [] with
    | .error e => .error e
    | .ok (ba, w2) =>
      match parseJSON files.chunksFile [] with
      | .error e => .error e
      | .ok (ch, w3) =>
        .ok (⟨sortAddrs fa, sortAddrs ba, ch⟩,
          (if w1 then 1 else 0) + (if w2 then 1 else 0) + (if w3 then 1 else 0))

/-- C9: an absent oracle file makes parseJSON warn, leave the collection
empty, and return no error, so newLifter still succeeds whenever no present
file is malformed (a missing oracle file is never fatal); a present but
malformed file makes newLifter fail with its parse error. -/
theorem newLifter_file_handling (files : OracleFiles) :
    (∀ current : List Nat,
      parseJSON (none : Option (Except String (List Nat))) current = .ok (current, true)) ∧
    ((files.funcsFile = none ∨ ∃ v, files.funcsFile = some (.ok v)) →
     (files.blocksFile = none ∨ ∃ v, files.blocksFile = some (.ok v)) →
     (files.chunksFile = none ∨ ∃ v, files.chunksFile = some (.ok v)) →
     ∃ l w, newLifter files = .ok (l, w)) ∧
    (∀ l w, newLifter files = .ok (l, w) →
      (files.funcsFile = none → l.funcAddrs = [] ∧ 1 ≤ w) ∧
      (files.blocksFile = none → l.blockAddrs = [] ∧ 1 ≤ w) ∧
      (files.chunksFile = none → l.chunks = [] ∧ 1 ≤ w)) ∧
    (∀ e, files.funcsFile = some (.error e) → newLifter files = .error e) ∧
    (∀ e, (files.funcsFile = none ∨ ∃ v, files.funcsFile = some (.ok v)) →
      files.blocksFile = some (.error e) → newLifter files = .error e) ∧
    (∀ e, (files.funcsFile = none ∨ ∃ v, files.funcsFile = some (.ok v)) →
      (files.blocksFile = none ∨ ∃ v, files.blocksFile = some (.ok v)) →
      files.chunksFile = some (.error e) → newLifter files = .error e) := by
  obtain ⟨ff, bf, cf⟩ := files
  refine ⟨fun current => rfl, ?_, ?_, ?_, ?_, ?_⟩
  · intro h1 h2 h3
    rcases h1 with h1 | ⟨v1, h1⟩ <;> rcases h2 with h2 | ⟨v2, h2⟩ <;>
      rcases h3 with h3 | ⟨v3, h3⟩ <;> subst h1 <;> subst h2 <;> subst h3 <;>
      exact ⟨_, _, rfl⟩
  · intro l w hok
    refine ⟨?_, ?_, ?_⟩ <;> intro habs <;> subst habs <;>
      simp only [newLifter, parseJSON] at hok
    · cases bf with
      | none =>
        cases cf with
        | none =>
          simp only [Except.ok.injEq, Prod.mk.injEq] at hok
          obtain ⟨hl, hw⟩ := hok
          subst hl
          exact ⟨rfl, by subst hw; simp⟩
        | some r3 =>
          cases r3 with
          | error e => simp at hok
          | ok v3 =>
            simp only [Except.ok.injEq, Prod.mk.injEq] at hok
            obtain ⟨hl, hw⟩ := hok
            subst hl
            exact ⟨rfl, by subst hw; simp⟩
      | some r2 =>
        cases r2 with
        | error e => simp at hok
        | ok v2 =>
          cases cf with
          | none =>
            simp only [Except.ok.injEq, Prod.mk.injEq] at hok
            obtain ⟨hl, hw⟩ := hok
            subst hl
            exact ⟨rfl, by subst hw; simp⟩
          | some r3 =>
            cases r3 with
            | error e => simp at hok
            | ok v3 =>
              simp only [Except.ok.injEq, Prod.mk.injEq] at hok
              obtain ⟨hl, hw⟩ := hok
              subst hl
              exact ⟨rfl, by subst hw; simp⟩
    · cases ff with
      | none =>
        cases cf with
        | none =>
          simp only [Except.ok.injEq, Prod.mk.injEq] at hok
          obtain ⟨hl, hw⟩ := hok
          subst hl
          exact ⟨rfl, by subst hw; simp⟩
        | some r3 =>
          cases r3 with
          | error e => simp at hok
          | ok v3 =>
            simp only [Except.ok.injEq, Prod.mk.injEq] at hok
            obtain ⟨hl, hw⟩ := hok
            subst hl
            exact ⟨rfl, by subst hw; simp⟩
      | some r1 =>
        cases r1 with
        | error e => simp at hok
        | ok v1 =>
          cases cf with
          | none =>
            simp only [Except.ok.injEq, Prod.mk.injEq] at hok
            obtain ⟨hl, hw⟩ := hok
            subst hl
            exact ⟨rfl, by subst hw; simp⟩
          | some r3 =>
            cases r3 with
            | error e => simp at hok
            | ok v3 =>
              simp only [Except.ok.injEq, Prod.mk.injEq] at hok
              obtain ⟨hl, hw⟩ := hok
              subst hl
              exact ⟨rfl, by subst hw; simp⟩
    · cases ff with
      | none =>
        cases bf with
        | none =>
          simp only [Except.ok.injEq, Prod.mk.injEq] at hok
          obtain ⟨hl, hw⟩ := hok
          subst hl
          exact ⟨rfl, by subst hw; simp⟩
        | some r2 =>
          cases r2 with
          | error e => simp at hok
          | ok v2 =>
            simp only [Except.ok.injEq, Prod.mk.injEq] at hok
            obtain ⟨hl, hw⟩ := hok
            subst hl
            exact ⟨rfl, by subst hw; simp⟩
      | some r1 =>
        cases r1 with
        | error e => simp at hok
        | ok v1 =>
          cases bf with
          | none =>
            simp only [Except.ok.injEq, Prod.mk.injEq] at hok
            obtain ⟨hl, hw⟩ := hok
            subst hl
            exact ⟨rfl, by subst hw; simp⟩
          | some r2 =>
            cases r2 with
            | error e => simp at hok
            | ok v2 =>
              simp only [Except.ok.injEq, Prod.mk.injEq] at hok
              obtain ⟨hl, hw⟩ := hok
              subst hl
              exact ⟨rfl, by subst hw; simp⟩
  · intro e he
    subst he
    rfl
  · intro e h1 h2
    subst h2
    rcases h1 with h1 | ⟨v1, h1⟩ <;> subst h1 <;> rfl
  · intro e h1 h2 h3
    subst h3
    rcases h1 with h1 | ⟨v1, h1⟩ <;> rcases h2 with h2 | ⟨v2, h2⟩ <;>
      subst h1 <;> subst h2 <;> rfl

/-- Witness for C9: funcs.json absent, blocks.json and chunks.json parsed. -/
theorem newLifter_file_handling_witness :
    ((∀ current : List Nat,
      parseJSON (none : Option (Except String (List Nat))) current = .ok (current, true)) ∧
    (((OracleFiles.mk none (some (.ok [4096])) (some (.ok []))).funcsFile = none ∨
        ∃ v, (OracleFiles.mk none (some (.ok [4096])) (some (.ok []))).funcsFile = some (.ok v)) →
     ((OracleFiles.mk none (some (.ok [4096])) (some (.ok []))).blocksFile = none ∨
        ∃ v, (OracleFiles.mk none (some (.ok [4096])) (some (.ok []))).blocksFile = some (.ok v)) →
     ((OracleFiles.mk none (some (.ok [4096])) (some (.ok []))).chunksFile = none ∨
        ∃ v, (OracleFiles.mk none (some (.ok [4096])) (some (.ok []))).chunksFile = some (.ok v)) →
     ∃ l w, newLifter (OracleFiles.mk none (some (.ok [4096])) (some (.ok []))) = .ok (l, w)) ∧
    (∀ l w, newLifter (OracleFiles.mk none (some (.ok [4096])) (some (.ok []))) = .ok (l, w) →
      ((OracleFiles.mk none (some (.ok [4096])) (some (.ok []))).funcsFile = none →
        l.funcAddrs = [] ∧ 1 ≤ w) ∧
      ((OracleFiles.mk none (some (.ok [4096])) (some (.ok []))).blocksFile = none →
        l.blockAddrs = [] ∧ 1 ≤ w) ∧
      ((OracleFiles.mk none (some (.ok [4096])) (some (.ok []))).chunksFile = none →
        l.chunks = [] ∧ 1 ≤ w)) ∧
    (∀ e, (OracleFiles.mk none (some (.ok [4096])) (some (.ok []))).funcsFile = some (.error e) →
      newLifter (OracleFiles.mk none (some (.ok [4096])) (some (.ok []))) = .error e) ∧
    (∀ e, ((OracleFiles.mk none (some (.ok [4096])) (some (.ok []))).funcsFile = none ∨
        ∃ v, (OracleFiles.mk none (some (.ok [4096])) (some (.ok []))).funcsFile = some (.ok v)) →
      (OracleFiles.mk none (some (.ok [4096])) (some (.ok []))).blocksFile = some (.error e) →
      newLifter (OracleFiles.mk none (some (.ok [4096])) (some (.ok []))) = .error e) ∧
    (∀ e, ((OracleFiles.mk none (some (.ok [4096])) (some (.ok []))).funcsFile = none ∨
        ∃ v, (OracleFiles.mk none (some (.ok [4096])) (some (.ok []))).funcsFile = some (.ok v)) →
      ((OracleFiles.mk none (some (.ok [4096])) (some (.ok []))).blocksFile = none ∨
        ∃ v, (OracleFiles.mk none (some (.ok [4096])) (some (.ok []))).blocksFile = some (.ok v)) →
      (OracleFiles.mk none (some (.ok [4096])) (some (.ok []))).chunksFile = some (.error e) →
      newLifter (OracleFiles.mk none (some (.ok [4096])) (some (.ok []))) = .error e)) :=
  newLifter_file_handling (OracleFiles.mk none (some (.ok [4096])) (some (.ok [])))

end XLift
